import Mathlib

/-!
Verification of the record-pool reducer in
`packages/ra-tree-core/src/reducers/data.ts`.

The JavaScript module maintains a pool of records indexed by (stringified)
identifier together with a `fetchedAt` metadata map stored under the
non-enumerable key `"fetchedAt"`.  We embed the module shallowly:

* JavaScript primitive values that the reducer inspects are `JVal`
  (strings, integer numbers, `undefined`, `NaN`);
* a JavaScript object with primitive values is an association list
  `JsObj := List (String × JVal)` with assignment semantics `aset`
  (overwrite the existing key in place, otherwise append) and property
  lookup `aget` / `jsGetV` (absent property reads as `undefined`);
* the reducer state is `Pool := List (String × PV)` where a `PV` is either
  an object or the `undefined` value (`records[id] = undefined` keeps the
  key but stores `undefined`);
* the key `"fetchedAt"` is exactly the slot made non-enumerable by
  `hideFetchedAt`, so `Object.keys` / `Object.entries` of a pool are
  modelled by skipping that key (`enumKeys`).

Machine integers: positions and timestamps are JavaScript numbers; all of
the claims use integer values only, so `JVal.num` carries an `Int` and the
number-to-string coercion renders ordinary decimal notation.  Cross-type
relational comparison (`'5' >= 3`, which JavaScript resolves by `ToNumber`
coercion) is outside the model: `jsGe` returns `false` on mixed operand
types; no claim exercises mixed-type positions.
-/

namespace RaTree

/-- A JavaScript primitive value as inspected by the reducer:
strings, (integer) numbers, `undefined` and `NaN`. -/
inductive JVal where
  | str (s : String)
  | num (n : Int)
  | undef
  | nan
deriving DecidableEq

/-- Decimal digit character for `d % 10`. -/
def digitChar (d : Nat) : Char := Char.ofNat (48 + d % 10)

/-- Fuel-indexed decimal rendering of a natural number (structural
recursion so that the kernel can evaluate it). -/
def natCharsAux : Nat → Nat → List Char
  | 0, _ => []
  | fuel + 1, n => if n < 10 then [digitChar n] else natCharsAux fuel (n / 10) ++ [digitChar (n % 10)]

/-- Decimal digit list of a natural number. -/
def natChars (n : Nat) : List Char := natCharsAux (n + 1) n

/-- JavaScript `ToString` on the primitive values of the model.  A number
renders in ordinary decimal notation, `undefined` as `"undefined"` and
`NaN` as `"NaN"`, exactly as JavaScript property-key coercion does. -/
def jsToString : JVal → String
  | .str s => s
  | .num n => if n < 0 then "-" ++ (natChars n.natAbs).asString else (natChars n.toNat).asString
  | .undef => "undefined"
  | .nan => "NaN"

/-- JavaScript strict equality `===` restricted to the primitive values of
the model: same-type structural equality, `undefined === undefined` is
`true`, and `NaN` is equal to nothing (including itself). -/
def jsEq : JVal → JVal → Bool
  | .str a, .str b => a == b
  | .num a, .num b => a == b
  | .undef, .undef => true
  | _, _ => false

/-- JavaScript `>=`.  Numbers compare numerically and strings
lexicographically.  Any comparison involving `undefined` or `NaN` is
`false` (NaN semantics).  Mixed string/number operands (which JavaScript
would coerce with `ToNumber`) are outside the model and return `false`;
no claim exercises them. -/
def jsGe : JVal → JVal → Bool
  | .num a, .num b => b ≤ a
  | .str a, .str b => b ≤ a
  | _, _ => false

/-- JavaScript `x + 1` on the primitive values of the model: numeric
increment, string concatenation with `"1"`, and `NaN` from `undefined`
or `NaN`. -/
def jsAdd1 : JVal → JVal
  | .num n => .num (n + 1)
  | .str s => .str (s ++ "1")
  | .undef => .nan
  | .nan => .nan

/-- A JavaScript object with primitive values: an association list of own
properties in insertion order. -/
abbrev JsObj := List (String × JVal)

/-- Property lookup on an association-list object: the value at the first
(unique, once built with `aset`) binding of the key. -/
def aget {α : Type} (o : List (String × α)) (k : String) : Option α :=
  (o.find? (fun e => e.1 == k)).map (fun e => e.2)

/-- Property assignment `o[k] = v` on an association-list object: if the
key exists its binding is overwritten in place, otherwise the binding is
appended (JavaScript own-property creation order). -/
def aset {α : Type} (o : List (String × α)) (k : String) (v : α) : List (String × α) :=
  if (o.find? (fun e => e.1 == k)).isSome then
    o.map (fun e => if e.1 = k then (k, v) else e)
  else
    o ++ [(k, v)]

/-- Property read `o[k]` as a `JVal`: an absent property reads as
`undefined`. -/
def jsGetV (o : JsObj) (k : String) : JVal := (aget o k).getD JVal.undef

/-- The object spread `{...a, ...b}`: the bindings of `b` assigned, in
order, on top of a copy of `a`. -/
def jsSpread {α : Type} (a b : List (String × α)) : List (String × α) :=
  b.foldl (fun acc e => aset acc e.1 e.2) a

/-- The value stored in a pool slot: a record (or the metadata object), or
the JavaScript `undefined` value. -/
inductive PV where
  | obj (o : JsObj)
  | undef
deriving DecidableEq

/-- The reducer state `RecordSetWithDate`: an object whose enumerable keys
hold records and whose (non-enumerable, see `hideFetchedAt`) key
`"fetchedAt"` holds the metadata map of fetch timestamps. -/
abbrev Pool := List (String × PV)

/-- Pool property read `state[id]` (on an already stringified key):
an absent key reads as `undefined`. -/
def poolGet (p : Pool) (k : String) : PV := (aget p k).getD PV.undef

/-- Spreading a `PV`: `{...undefined}` contributes nothing. -/
def objOfPV : PV → JsObj
  | .obj o => o
  | .undef => []

/-- The value of `state.fetchedAt`, as the object the reducer subsequently
spreads and enumerates.  (Reading it from a pool that lacks the slot would
throw in JavaScript; every pool the reducer builds has the slot, and the
model reads `{}` there.) -/
def fetchedAtOf (p : Pool) : JsObj := objOfPV (poolGet p "fetchedAt")

/-- `Object.keys(state)`: the enumerable own keys, i.e. every key except
the `"fetchedAt"` slot hidden by `hideFetchedAt`. -/
def enumKeys (p : Pool) : List String :=
  (p.map (fun e => e.1)).filter (fun k => !(k == "fetchedAt"))

/-- The identifiers present in the metadata map. -/
def fetchedKeys (p : Pool) : List String := (fetchedAtOf p).map (fun e => e.1)

/-- Make the `fetchedAt` property non-enumerable.  Enumerability is
structural in the model (`enumKeys` always skips the `"fetchedAt"` key),
so the function is the identity on the representation. -/
def hideFetchedAt (records : Pool) : Pool := records

/-- Modelled from the spec: `getFetchedAt` is imported from `ra-core`,
whose source is not under `src/`.  Spec §4 (merge algorithm): "compute the
timestamp set for all identifiers that will exist after the merge — i.e.,
for every identifier in `oldPool.fetchedAt` unchanged, plus for every
identifier in `newRecords` refreshed to the current instant".  The current
instant is the explicit `now` parameter. -/
def getFetchedAt (newRecordIds : List JVal) (oldRecordFetchedAt : JsObj) (now : Int) : JsObj :=
  newRecordIds.foldl (fun acc id => aset acc (jsToString id) (JVal.num now)) oldRecordFetchedAt

/-- `addRecords(newRecords, oldRecords)`: merge new records into the pool,
stale-while-revalidate style (`data.ts` lines 70–88).  `now` is the
current instant consumed by `getFetchedAt`. -/
def addRecords (newRecords : List JsObj) (oldRecords : Pool) (now : Int) : Pool :=
  let newRecordsById : List (String × JsObj) :=
    newRecords.foldl (fun acc r => aset acc (jsToString (jsGetV r "id")) r) []
  let newFetchedAt : JsObj :=
    getFetchedAt (newRecords.map (fun r => jsGetV r "id")) (fetchedAtOf oldRecords) now
  let records : Pool :=
    (newFetchedAt.map (fun e => e.1)).foldl
      (fun acc id =>
        aset acc id
          (match aget newRecordsById id with
           | some r => PV.obj r
           | none => poolGet oldRecords id))
      [("fetchedAt", PV.obj newFetchedAt)]
  hideFetchedAt records

/-- `Array.prototype.includes` of a string key in the identifier list:
SameValueZero comparison, so a numeric identifier never matches the
(always string) object key. -/
def idsInclude (ids : List JVal) (key : String) : Bool :=
  ids.any (fun i =>
    match i with
    | .str s => s == key
    | _ => false)

/-- `removeRecords(removedRecordIds, oldRecords)` (`data.ts` lines
93–107): rebuild the pool from the enumerable entries whose key is not in
the removed list (`Object.entries` skips the non-enumerable `fetchedAt`
slot), then assign the equally filtered metadata map. -/
def removeRecords (removedRecordIds : List JVal) (oldRecords : Pool) : Pool :=
  let records : Pool :=
    (oldRecords.filter (fun e => !(e.1 == "fetchedAt") && !(idsInclude removedRecordIds e.1))).foldl
      (fun acc e => aset acc e.1 e.2)
      [("fetchedAt", PV.obj [])]
  let newFetched : JsObj :=
    ((fetchedAtOf oldRecords).filter (fun e => !(idsInclude removedRecordIds e.1))).foldl
      (fun acc e => aset acc e.1 e.2)
      []
  hideFetchedAt (aset records "fetchedAt" (PV.obj newFetched))

/-- Modelled from the spec: action-type constant imported from `ra-core`
(not under `src/`); only distinctness of the constants matters. -/
def UPDATE : String := "RA/UPDATE"

/-- Modelled from the spec: action-type constant imported from `ra-core`. -/
def UPDATE_MANY : String := "RA/UPDATE_MANY"

/-- Modelled from the spec: action-type constant imported from `ra-core`. -/
def DELETE : String := "RA/DELETE"

/-- Modelled from the spec: action-type constant imported from `ra-core`. -/
def DELETE_MANY : String := "RA/DELETE_MANY"

/-- Modelled from the spec: action-type constant imported from `ra-core`. -/
def CREATE : String := "RA/CREATE"

/-- Modelled from the spec: action-type constant imported from `ra-core`. -/
def GET_ONE : String := "RA/GET_ONE"

/-- Modelled from the spec: action-type constant imported from `ra-core`. -/
def GET_LIST : String := "RA/GET_LIST"

/-- Modelled from the spec: action-type constant imported from `ra-core`. -/
def GET_MANY : String := "RA/GET_MANY"

/-- Modelled from the spec: action-type constant imported from `ra-core`. -/
def GET_MANY_REFERENCE : String := "RA/GET_MANY_REFERENCE"

/-- Modelled from the spec: fetch-status constant imported from `ra-core`. -/
def FETCH_END : String := "RA/FETCH_END"

/-- Modelled from the spec: tree action-type constant imported from
`../actions` (not under `src/`). -/
def GET_TREE_ROOT_NODES : String := "RA_TREE/GET_TREE_ROOT_NODES"

/-- Modelled from the spec: tree action-type constant imported from
`../actions`. -/
def GET_TREE_CHILDREN_NODES : String := "RA_TREE/GET_TREE_CHILDREN_NODES"

/-- Modelled from the spec: tree action-type constant imported from
`../actions`. -/
def MOVE_NODE : String := "RA_TREE/MOVE_NODE"

/-- The `payload.data` field: absent, a single record object, or an array
of record objects (fetch-list responses). -/
inductive PData where
  | none
  | obj (o : JsObj)
  | arr (l : List JsObj)
deriving DecidableEq

/-- Reading `payload.data` where the reducer spreads it as an object
(`{...payload.data}` and field reads).  `undefined` spreads to nothing.
(An array here would expose index keys in JavaScript; no well-formed
action reaches that case and no claim exercises it.) -/
def PData.toObj : PData → JsObj
  | .obj o => o
  | _ => []

/-- Reading `payload.data` where the reducer passes it as an array to
`addRecords`, whose default parameter turns `undefined` into `[]`.  (A
plain object here would make `forEach` throw in JavaScript; no well-formed
action reaches that case and no claim exercises it.) -/
def PData.toArr : PData → List JsObj
  | .arr l => l
  | _ => []

/-- The `meta` fields that the reducer reads. -/
structure Meta where
  optimistic : Bool
  fetch : Option String
  parentSource : Option String
  positionSource : Option String
  fetchResponse : Option String
  fetchStatus : Option String
deriving DecidableEq

/-- The `payload` fields that the reducer reads. -/
structure Payload where
  id : JVal
  ids : List JVal
  data : PData
deriving DecidableEq

/-- A dispatched action, as destructured by the reducer into `payload`
and (possibly absent) `meta`. -/
structure Action where
  payload : Payload
  meta : Option Meta
deriving DecidableEq

/-- JavaScript truthiness of an optional string (`undefined` and the
empty string are falsy). -/
def optTruthy : Option String → Bool
  | some s => !(s == "")
  | none => false

/-- The property key used when indexing by `meta.parentSource` or
`meta.positionSource`: an `undefined` field name indexes the `"undefined"`
property. -/
def srcKey : Option String → String
  | some s => s
  | none => "undefined"

/-- The `updatedRecord` of the optimistic `UPDATE` / `MOVE_NODE` branch:
`{...previousState[payload.id], ...payload.data}` (`data.ts` lines
117–120). -/
def updatedRecord (previousState : Pool) (a : Action) : JsObj :=
  jsSpread (objOfPV (poolGet previousState (jsToString a.payload.id))) a.payload.data.toObj

/-- The sibling filter of the move branch (`data.ts` lines 125–129):
same parent-field value as the updated record's new parent and
position-field value `>=` the updated record's new position. -/
def siblingCond (previousState : Pool) (a : Action) (id : String) : Bool :=
  match a.meta with
  | some meta =>
      jsEq (jsGetV (objOfPV (poolGet previousState id)) (srcKey meta.parentSource))
           (jsGetV a.payload.data.toObj (srcKey meta.parentSource))
      && jsGe (jsGetV (objOfPV (poolGet previousState id)) (srcKey meta.positionSource))
              (jsGetV a.payload.data.toObj (srcKey meta.positionSource))
  | none => false

/-- The shifted copy of the record at `id` (`data.ts` lines 131–135):
`{...previousState[id], [positionSource]: previousState[id][positionSource] + 1}`. -/
def shiftOf (previousState : Pool) (a : Action) (id : String) : JsObj :=
  match a.meta with
  | some meta =>
      aset (objOfPV (poolGet previousState id)) (srcKey meta.positionSource)
        (jsAdd1 (jsGetV (objOfPV (poolGet previousState id)) (srcKey meta.positionSource)))
  | none => objOfPV (poolGet previousState id)

/-- The `nextSiblings` of the optimistic `UPDATE` / `MOVE_NODE` branch
(`data.ts` lines 122–136): when a position-field name is given (truthy),
the shifted copies of every enumerated record passing the sibling filter;
otherwise the empty list. -/
def nextSiblings (previousState : Pool) (a : Action) : List JsObj :=
  match a.meta with
  | some meta =>
      if optTruthy meta.positionSource then
        ((enumKeys previousState).filter (fun id => siblingCond previousState a id)).map
          (fun id => shiftOf previousState a id)
      else []
  | none => []

/-- The settled-fetch part of the reducer (`data.ts` lines 154–171):
actionable only with a truthy `fetchResponse` and `fetchStatus ===
FETCH_END`; bulk response kinds merge the record array, singular kinds
merge the single record, anything else is the identity. -/
def fetchBranch (previousState : Pool) (a : Action) (now : Int) : Pool :=
  match a.meta with
  | Option.none => previousState
  | some meta =>
      if optTruthy meta.fetchResponse = false ∨ meta.fetchStatus ≠ some FETCH_END then
        previousState
      else
        match meta.fetchResponse with
        | some fr =>
            if fr = GET_TREE_ROOT_NODES ∨ fr = GET_TREE_CHILDREN_NODES ∨ fr = GET_LIST ∨
               fr = GET_MANY ∨ fr = GET_MANY_REFERENCE then
              addRecords a.payload.data.toArr previousState now
            else if fr = GET_ONE ∨ fr = UPDATE ∨ fr = CREATE then
              addRecords [a.payload.data.toObj] previousState now
            else previousState
        | Option.none => previousState

/-- The reducer (`data.ts` lines 111–172).  The optimistic block handles
`UPDATE`/`MOVE_NODE`, `UPDATE_MANY`, `DELETE` and `DELETE_MANY` and falls
through to the settled-fetch part otherwise.  `now` is the current
instant consumed by `getFetchedAt`. -/
def dataReducer (previousState : Pool) (a : Action) (now : Int) : Pool :=
  match a.meta with
  | some meta =>
      if meta.optimistic then
        if meta.fetch = some UPDATE ∨ meta.fetch = some MOVE_NODE then
          addRecords (updatedRecord previousState a :: nextSiblings previousState a)
            previousState now
        else if meta.fetch = some UPDATE_MANY then
          addRecords
            (a.payload.ids.map (fun id =>
              jsSpread (objOfPV (poolGet previousState (jsToString id))) a.payload.data.toObj))
            previousState now
        else if meta.fetch = some DELETE then
          removeRecords [a.payload.id] previousState
        else if meta.fetch = some DELETE_MANY then
          removeRecords a.payload.ids previousState
        else fetchBranch previousState a now
      else fetchBranch previousState a now
  | Option.none => previousState

/-- The initial state: an empty pool with an empty (hidden) metadata map. -/
def initialState : Pool := hideFetchedAt [("fetchedAt", PV.obj [])]

/-- `getRecord(state, id) => state[id]` (`data.ts` line 174).  Property
access coerces the identifier to a string and also finds non-enumerable
properties; an absent key is `undefined` (`Option.none`). -/
def getRecord (state : Pool) (id : JVal) : Option PV := aget state (jsToString id)

/-- The pools reachable from the initial state by reduce calls. -/
inductive Reachable : Pool → Prop where
  | init : Reachable initialState
  | step {p : Pool} (a : Action) (now : Int) : Reachable p → Reachable (dataReducer p a now)

/-- A record object is id-safe when its `id` field does not stringify to
the reserved key `"fetchedAt"` (any of its `id` bindings, robustly). -/
def safeDataB (o : JsObj) : Bool :=
  o.all (fun e => !(e.1 == "id") || !(jsToString e.2 == "fetchedAt"))

/-- An action is safe when the record data it carries is id-safe. -/
def SafeActionB (a : Action) : Bool :=
  safeDataB a.payload.data.toObj && a.payload.data.toArr.all safeDataB

/-- The pools reachable from the initial state by reduce calls whose
actions carry only id-safe record data. -/
inductive SafeReachable : Pool → Prop where
  | init : SafeReachable initialState
  | step {p : Pool} (a : Action) (now : Int) :
      SafeActionB a = true → SafeReachable p → SafeReachable (dataReducer p a now)

/-- Decidable well-formedness of a pool, entry-wise: the `"fetchedAt"`
slot holds an object whose entries all have non-reserved keys and numeric
(timestamp) values; the enumerable key set and the metadata key set
coincide; and every stored record is id-safe. -/
def WfB (p : Pool) : Bool :=
  (match aget p "fetchedAt" with
   | some (PV.obj m) =>
       m.all (fun e =>
         !(e.1 == "fetchedAt") &&
         (match e.2 with
          | JVal.num _ => true
          | _ => false))
   | _ => false)
  && (enumKeys p).all (fun k => (fetchedKeys p).contains k)
  && (fetchedKeys p).all (fun k => (enumKeys p).contains k)
  && p.all (fun e =>
       e.1 == "fetchedAt" ||
       (match e.2 with
        | PV.obj r => !(jsToString (jsGetV r "id") == "fetchedAt")
        | PV.undef => true))

/-- Decidable check that every stored record's `id` field stringifies to
the key it is stored under (and that no enumerable slot holds
`undefined`). -/
def IdMatchB (p : Pool) : Bool :=
  p.all (fun e =>
    e.1 == "fetchedAt" ||
    (match e.2 with
     | PV.obj r => jsToString (jsGetV r "id") == e.1
     | PV.undef => false))

/-! ### Association-list lemmas

Lookup/assignment algebra for the JavaScript object model, plus
characterizations of the folds used by `addRecords`, `removeRecords`,
`jsSpread` and `getFetchedAt`. -/

theorem aget_nil {α : Type} (k : String) : aget ([] : List (String × α)) k = none := rfl

theorem aget_cons {α : Type} (e : String × α) (o : List (String × α)) (k : String) :
    aget (e :: o) k = if e.1 = k then some e.2 else aget o k := by
  by_cases h : e.1 = k <;> simp [aget, List.find?_cons, h]

theorem aget_append {α : Type} (o₁ o₂ : List (String × α)) (k : String) :
    aget (o₁ ++ o₂) k = (aget o₁ k).or (aget o₂ k) := by
  simp only [aget, List.find?_append]
  exact Option.map_or

theorem aget_map_replace {α : Type} (o : List (String × α)) (k k' : String) (v : α) :
    aget (o.map (fun e => if e.1 = k then (k, v) else e)) k' =
      if k' = k then Option.map (fun _ => v) (aget o k) else aget o k' := by
  induction o with
  | nil => by_cases h : k' = k <;> simp [aget, h]
  | cons e o ih =>
      by_cases he : e.1 = k
      · by_cases hk : k' = k
        · subst hk
          simp [List.map_cons, he, aget_cons, ih]
        · have hk' : ¬k = k' := fun hh => hk hh.symm
          simp [List.map_cons, he, aget_cons, ih, hk, hk']
      · by_cases hk : k' = k
        · subst hk
          simp [List.map_cons, he, aget_cons, ih]
        · simp [List.map_cons, he, aget_cons, ih, hk]

theorem isSome_aget {α : Type} (o : List (String × α)) (k : String) :
    (aget o k).isSome ↔ k ∈ o.map (fun e => e.1) := by
  simp only [aget, Option.isSome_map', List.find?_isSome, List.mem_map]
  constructor
  · rintro ⟨e, he, hk⟩
    exact ⟨e, he, by simpa using hk⟩
  · rintro ⟨e, he, hk⟩
    exact ⟨e, he, by simpa using hk⟩

theorem aget_eq_none {α : Type} (o : List (String × α)) (k : String) :
    aget o k = none ↔ k ∉ o.map (fun e => e.1) := by
  rw [← isSome_aget, Option.not_isSome_iff_eq_none]

theorem aget_mem {α : Type} {o : List (String × α)} {k : String} {v : α}
    (h : aget o k = some v) : (k, v) ∈ o := by
  simp only [aget, Option.map_eq_some'] at h
  obtain ⟨e, he, hv⟩ := h
  have h1 : e.1 = k := by simpa using List.find?_some he
  have h2 : e ∈ o := List.mem_of_find?_eq_some he
  have : e = (k, v) := by
    cases e
    simp_all
  rwa [this] at h2

theorem aget_aset {α : Type} (o : List (String × α)) (k k' : String) (v : α) :
    aget (aset o k v) k' = if k' = k then some v else aget o k' := by
  unfold aset
  by_cases h : (o.find? (fun e => e.1 == k)).isSome
  · rw [if_pos h, aget_map_replace]
    by_cases hk : k' = k
    · rw [if_pos hk, if_pos hk]
      have hs : (aget o k).isSome := by simpa [aget, Option.isSome_map'] using h
      obtain ⟨x, hx⟩ := Option.isSome_iff_exists.mp hs
      simp [hx]
    · rw [if_neg hk, if_neg hk]
  · rw [if_neg h, aget_append]
    by_cases hk : k' = k
    · subst hk
      have h0 : aget o k' = none := by
        unfold aget
        rw [Option.map_eq_none']
        exact Option.not_isSome_iff_eq_none.mp h
      rw [h0, Option.none_or, aget_cons, if_pos rfl, if_pos rfl]
    · have hkk : ¬k = k' := fun hh => hk hh.symm
      have h1 : aget [(k, v)] k' = none := by
        rw [aget_cons, if_neg hkk, aget_nil]
      rw [h1, Option.or_none, if_neg hk]

theorem mem_aset {α : Type} {o : List (String × α)} {k : String} {v : α} {e : String × α}
    (h : e ∈ aset o k v) : e ∈ o ∨ e = (k, v) := by
  unfold aset at h
  by_cases hc : (o.find? (fun e => e.1 == k)).isSome
  · rw [if_pos hc] at h
    obtain ⟨x, hx, hxe⟩ := List.mem_map.mp h
    by_cases hxk : x.1 = k
    · right
      rw [← hxe]
      simp [hxk]
    · left
      rw [← hxe]
      simpa [hxk] using hx
  · rw [if_neg hc] at h
    rcases List.mem_append.mp h with h1 | h1
    · exact Or.inl h1
    · right
      simpa using h1

/-- Last-binding lookup: the value produced by the last element of `l`
whose key (under `κ`) is `k`.  This is what a left fold of assignments
stores at `k`. -/
def lastWith {β α : Type} (κ : β → String) (ν : β → α) (l : List β) (k : String) : Option α :=
  (l.reverse.find? (fun x => κ x == k)).map ν

theorem lastWith_nil {β α : Type} (κ : β → String) (ν : β → α) (k : String) :
    lastWith κ ν ([] : List β) k = none := rfl

theorem lastWith_cons {β α : Type} (κ : β → String) (ν : β → α) (x : β) (l : List β)
    (k : String) :
    lastWith κ ν (x :: l) k =
      (lastWith κ ν l k).or (if κ x = k then some (ν x) else none) := by
  simp only [lastWith, List.reverse_cons, List.find?_append]
  by_cases h : κ x = k <;>
    cases hf : List.find? (fun y => κ y == k) l.reverse <;>
      simp [List.find?_cons, h, hf, Option.or]

theorem lastWith_isSome {β α : Type} (κ : β → String) (ν : β → α) (l : List β) (k : String) :
    (lastWith κ ν l k).isSome ↔ ∃ x ∈ l, κ x = k := by
  simp only [lastWith, Option.isSome_map', List.find?_isSome, List.mem_reverse, beq_iff_eq]

theorem lastWith_eq_some {β α : Type} {κ : β → String} {ν : β → α} {l : List β} {k : String}
    {v : α} (h : lastWith κ ν l k = some v) : ∃ x ∈ l, κ x = k ∧ v = ν x := by
  simp only [lastWith, Option.map_eq_some'] at h
  obtain ⟨x, hx, hv⟩ := h
  exact ⟨x, List.mem_reverse.mp (List.mem_of_find?_eq_some hx),
    by simpa using List.find?_some hx, hv.symm⟩

theorem lastWith_eq_none {β α : Type} {κ : β → String} {ν : β → α} {l : List β} {k : String}
    (h : ∀ x ∈ l, κ x ≠ k) : lastWith κ ν l k = none := by
  simp only [lastWith, Option.map_eq_none', List.find?_eq_none, List.mem_reverse, beq_iff_eq]
  exact h

/-- When the produced value is a function of the key alone, the last
binding equals the first: membership decides the lookup. -/
theorem lastWith_keyfn {α : Type} (f : String → α) (l : List String) (k : String) :
    lastWith (fun x => x) f l k = if k ∈ l then some (f k) else none := by
  cases h : l.reverse.find? (fun x => x == k) with
  | none =>
      have : k ∉ l := by
        intro hk
        have := List.find?_eq_none.mp h k (List.mem_reverse.mpr hk)
        simp at this
      simp [lastWith, h, this]
  | some x =>
      have hx : x = k := by simpa using List.find?_some h
      have hm : k ∈ l := by
        have := List.mem_of_find?_eq_some h
        rw [List.mem_reverse] at this
        rwa [hx] at this
      simp [lastWith, h, hx, hm]

/-- On an object with no duplicate keys, the last binding is the first:
`lastWith` agrees with `aget`. -/
theorem lastWith_nodup {α : Type} {o : List (String × α)}
    (h : (o.map (fun e => e.1)).Nodup) (k : String) :
    lastWith (fun e => e.1) (fun e => e.2) o k = aget o k := by
  induction o with
  | nil => rfl
  | cons e o ih =>
      simp only [List.map_cons, List.nodup_cons] at h
      rw [lastWith_cons, aget_cons, ih h.2]
      by_cases he : e.1 = k
      · have hno : aget o k = none := by
          rw [aget_eq_none]
          exact he ▸ h.1
        rw [if_pos he, if_pos he, hno]
        simp [Option.none_or]
      · rw [if_neg he, if_neg he, Option.or_none]

theorem aget_foldl_entries {β α : Type} (κ : β → String) (ν : β → α) (l : List β)
    (init : List (String × α)) (k : String) :
    aget (l.foldl (fun acc x => aset acc (κ x) (ν x)) init) k =
      (lastWith κ ν l k).or (aget init k) := by
  induction l generalizing init with
  | nil => simp [lastWith_nil, Option.none_or]
  | cons x l ih =>
      simp only [List.foldl_cons, lastWith_cons, Option.or_assoc]
      rw [ih, aget_aset]
      by_cases h : κ x = k
      · simp [h]
      · have h2 : ¬k = κ x := fun hh => h hh.symm
        simp [h, h2]

theorem aget_foldl_keys {α : Type} (L : List String) (f : String → α)
    (init : List (String × α)) (k : String) :
    aget (L.foldl (fun acc x => aset acc x (f x)) init) k =
      if k ∈ L then some (f k) else aget init k := by
  have h := aget_foldl_entries (fun x => x) f L init k
  rw [lastWith_keyfn] at h
  rw [h]
  by_cases hk : k ∈ L <;> simp [hk, Option.none_or]

theorem mem_foldl_entries {β α : Type} (κ : β → String) (ν : β → α) (l : List β)
    (init : List (String × α)) (e : String × α)
    (h : e ∈ l.foldl (fun acc x => aset acc (κ x) (ν x)) init) :
    e ∈ init ∨ ∃ x ∈ l, e = (κ x, ν x) := by
  induction l generalizing init with
  | nil => exact Or.inl h
  | cons x l ih =>
      rcases ih _ (by simpa using h) with h1 | h1
      · rcases mem_aset h1 with h2 | h2
        · exact Or.inl h2
        · exact Or.inr ⟨x, List.mem_cons_self x l, h2⟩
      · obtain ⟨y, hy, hye⟩ := h1
        exact Or.inr ⟨y, List.mem_cons_of_mem x hy, hye⟩

/-! ### Stringification lemmas

No JavaScript number, `undefined`, `NaN`, or result of the `+ 1` position
bump ever stringifies to the reserved key `"fetchedAt"`. -/

theorem digitChar_mem (d : Nat) :
    digitChar d ∈ ['0', '1', '2', '3', '4', '5', '6', '7', '8', '9'] := by
  unfold digitChar
  have h : d % 10 < 10 := Nat.mod_lt _ (by norm_num)
  set m := d % 10 with hm
  interval_cases m <;> decide

theorem natCharsAux_digits (fuel n : Nat) :
    ∀ c ∈ natCharsAux fuel n, c ∈ ['0', '1', '2', '3', '4', '5', '6', '7', '8', '9'] := by
  induction fuel generalizing n with
  | zero => intro c hc; simp [natCharsAux] at hc
  | succ fuel ih =>
      intro c hc
      unfold natCharsAux at hc
      by_cases h : n < 10
      · rw [if_pos h] at hc
        simp only [List.mem_singleton] at hc
        exact hc ▸ digitChar_mem n
      · rw [if_neg h] at hc
        rcases List.mem_append.mp hc with h1 | h1
        · exact ih _ c h1
        · simp only [List.mem_singleton] at h1
          exact h1 ▸ digitChar_mem (n % 10)

theorem natChars_asString_ne (n : Nat) : (natChars n).asString ≠ "fetchedAt" := by
  intro h
  have hd : natChars n = "fetchedAt".data := by
    have := String.ext_iff.mp h
    simpa using this
  have hf : 'f' ∈ natChars n := by
    rw [hd]
    decide
  have := natCharsAux_digits (n + 1) n 'f' hf
  simp at this

theorem jsToString_num_ne (n : Int) : jsToString (JVal.num n) ≠ "fetchedAt" := by
  simp only [jsToString]
  by_cases h : n < 0
  · rw [if_pos h]
    intro hc
    have hd := String.ext_iff.mp hc
    rw [String.data_append] at hd
    have : '-' = 'f' := by
      have h2 : ("-" : String).data = ['-'] := by decide
      rw [h2] at hd
      have h3 : "fetchedAt".data = ['f', 'e', 't', 'c', 'h', 'e', 'd', 'A', 't'] := by decide
      rw [h3] at hd
      exact (List.cons.injEq _ _ _ _ ▸ hd).1
    simp at this
  · rw [if_neg h]
    exact natChars_asString_ne n.toNat

theorem append_one_ne (s : String) : s ++ "1" ≠ "fetchedAt" := by
  intro h
  have hd := String.ext_iff.mp h
  rw [String.data_append] at hd
  have h1 : ("1" : String).data = ['1'] := by decide
  rw [h1] at hd
  have h2 := congrArg List.getLast? hd
  rw [List.getLast?_concat] at h2
  have h3 : "fetchedAt".data.getLast? = some 't' := by decide
  rw [h3] at h2
  simp at h2

theorem jsToString_jsAdd1_ne (v : JVal) : jsToString (jsAdd1 v) ≠ "fetchedAt" := by
  cases v with
  | str s => exact append_one_ne s
  | num n => exact jsToString_num_ne (n + 1)
  | undef => decide
  | nan => decide

/-! ### Object-level helper lemmas -/

theorem jsGetV_aset (o : JsObj) (k k' : String) (v : JVal) :
    jsGetV (aset o k v) k' = if k' = k then v else jsGetV o k' := by
  unfold jsGetV
  rw [aget_aset]
  by_cases h : k' = k <;> simp [h]

theorem safeDataB_id {o : JsObj} (h : safeDataB o = true) :
    jsToString (jsGetV o "id") ≠ "fetchedAt" := by
  unfold jsGetV
  cases hv : aget o "id" with
  | none => decide
  | some v =>
      have hm := aget_mem hv
      have := (List.all_eq_true.mp h) _ hm
      simpa using this

/-- Lookup through an object spread. -/
theorem aget_jsSpread {α : Type} (a b : List (String × α)) (k : String) :
    aget (jsSpread a b) k = (lastWith (fun e => e.1) (fun e => e.2) b k).or (aget a k) := by
  unfold jsSpread
  exact aget_foldl_entries (fun (e : String × α) => e.1) (fun (e : String × α) => e.2) b a k

/-! ### Characterization of `getFetchedAt`, `addRecords`, `removeRecords` -/

theorem lastWith_const {β α : Type} (κ : β → String) (c : α) (l : List β) (k : String) :
    lastWith κ (fun _ => c) l k = if k ∈ l.map κ then some c else none := by
  cases h : l.reverse.find? (fun x => κ x == k) with
  | none =>
      have hm : k ∉ l.map κ := by
        simp only [List.mem_map]
        rintro ⟨x, hx, hk⟩
        have := List.find?_eq_none.mp h x (List.mem_reverse.mpr hx)
        simp [hk] at this
      simp [lastWith, h, hm]
  | some x =>
      have hx : κ x = k := by simpa using List.find?_some h
      have hm : k ∈ l.map κ :=
        List.mem_map.mpr ⟨x, List.mem_reverse.mp (List.mem_of_find?_eq_some h), hx⟩
      simp [lastWith, h, hm]

theorem aget_getFetchedAt (ids : List JVal) (oldF : JsObj) (now : Int) (k : String) :
    aget (getFetchedAt ids oldF now) k =
      if k ∈ ids.map jsToString then some (JVal.num now) else aget oldF k := by
  have h := aget_foldl_entries jsToString (fun _ => JVal.num now) ids oldF k
  rw [lastWith_const] at h
  unfold getFetchedAt
  rw [h]
  by_cases hk : k ∈ ids.map jsToString <;> simp [hk, Option.none_or, Option.or]

theorem mem_keys_getFetchedAt (ids : List JVal) (oldF : JsObj) (now : Int) (k : String) :
    k ∈ (getFetchedAt ids oldF now).map (fun e => e.1) ↔
      k ∈ ids.map jsToString ∨ k ∈ oldF.map (fun e => e.1) := by
  rw [← isSome_aget, aget_getFetchedAt]
  by_cases hk : k ∈ ids.map jsToString <;> simp [hk, isSome_aget]

theorem mem_getFetchedAt {ids : List JVal} {oldF : JsObj} {now : Int} {e : String × JVal}
    (h : e ∈ getFetchedAt ids oldF now) :
    e ∈ oldF ∨ ∃ i ∈ ids, e = (jsToString i, JVal.num now) := by
  have := mem_foldl_entries jsToString (fun _ => JVal.num now) ids oldF e h
  tauto

/-- The metadata map that `addRecords rs p now` installs. -/
def newFetchedAtOf (rs : List JsObj) (p : Pool) (now : Int) : JsObj :=
  getFetchedAt (rs.map (fun r => jsGetV r "id")) (fetchedAtOf p) now

/-- The contents of `newRecordsById` at key `k`: the last record of `rs`
whose `id` stringifies to `k`. -/
def byIdOf (rs : List JsObj) (k : String) : Option JsObj :=
  lastWith (fun r => jsToString (jsGetV r "id")) (fun r => r) rs k

/-- What `addRecords` stores at a merged key: the incoming record if one
is supplied, else the previous slot carried over. -/
def mergeVal (rs : List JsObj) (p : Pool) (k : String) : PV :=
  match byIdOf rs k with
  | some r => PV.obj r
  | none => poolGet p k

theorem aget_addRecords (rs : List JsObj) (p : Pool) (now : Int) (k : String) :
    aget (addRecords rs p now) k =
      if k ∈ (newFetchedAtOf rs p now).map (fun e => e.1) then some (mergeVal rs p k)
      else if k = "fetchedAt" then some (PV.obj (newFetchedAtOf rs p now)) else none := by
  unfold addRecords hideFetchedAt
  simp only []
  have hById : ∀ k' : String,
      aget (rs.foldl (fun acc r => aset acc (jsToString (jsGetV r "id")) r) []) k' =
        byIdOf rs k' := by
    intro k'
    have h := aget_foldl_entries (fun r => jsToString (jsGetV r "id")) (fun r => r) rs [] k'
    rw [aget_nil, Option.or_none] at h
    exact h
  have hFold := aget_foldl_keys
    ((getFetchedAt (rs.map (fun r => jsGetV r "id")) (fetchedAtOf p) now).map (fun e => e.1))
    (fun id =>
      match aget (rs.foldl (fun acc r => aset acc (jsToString (jsGetV r "id")) r) []) id with
      | some r => PV.obj r
      | none => poolGet p id)
    [("fetchedAt", PV.obj (getFetchedAt (rs.map (fun r => jsGetV r "id")) (fetchedAtOf p) now))]
    k
  rw [hFold]
  rw [hById k]
  unfold newFetchedAtOf mergeVal
  by_cases hk : k ∈ (getFetchedAt (rs.map (fun r => jsGetV r "id")) (fetchedAtOf p) now).map
      (fun e => e.1)
  · rw [if_pos hk, if_pos hk]
  · rw [if_neg hk, if_neg hk, aget_cons, aget_nil]
    by_cases hfa : k = "fetchedAt"
    · simp [hfa]
    · have hne : ¬("fetchedAt" : String) = k := fun hh => hfa hh.symm
      simp [hfa, hne]

/-- Entries of `addRecords`: each entry is the installed metadata slot or
a merged value at a metadata key. -/
theorem mem_addRecords {rs : List JsObj} {p : Pool} {now : Int} {e : String × PV}
    (h : e ∈ addRecords rs p now) :
    e = ("fetchedAt", PV.obj (newFetchedAtOf rs p now)) ∨
      ∃ k ∈ (newFetchedAtOf rs p now).map (fun e => e.1), e = (k, mergeVal rs p k) := by
  unfold addRecords hideFetchedAt at h
  simp only [] at h
  have h2 := mem_foldl_entries (fun x => x)
    (fun id =>
      match aget (rs.foldl (fun acc r => aset acc (jsToString (jsGetV r "id")) r) []) id with
      | some r => PV.obj r
      | none => poolGet p id)
    ((getFetchedAt (rs.map (fun r => jsGetV r "id")) (fetchedAtOf p) now).map (fun e => e.1))
    [("fetchedAt",
      PV.obj (getFetchedAt (rs.map (fun r => jsGetV r "id")) (fetchedAtOf p) now))]
    e h
  rcases h2 with h2 | h2
  · left
    simpa [newFetchedAtOf] using h2
  · right
    obtain ⟨x, hx, hex⟩ := h2
    refine ⟨x, by simpa [newFetchedAtOf] using hx, ?_⟩
    rw [hex]
    have hById : aget (rs.foldl (fun acc r => aset acc (jsToString (jsGetV r "id")) r) []) x =
        byIdOf rs x := by
      have h3 := aget_foldl_entries (fun r => jsToString (jsGetV r "id")) (fun r => r) rs [] x
      rw [aget_nil, Option.or_none] at h3
      exact h3
    simp [mergeVal, hById]

/-- The enumerable entries of `oldRecords` that `removeRecords` keeps. -/
def keptEntries (ids : List JVal) (p : Pool) : Pool :=
  p.filter (fun e => !(e.1 == "fetchedAt") && !(idsInclude ids e.1))

/-- The metadata map that `removeRecords` installs. -/
def keptFetched (ids : List JVal) (p : Pool) : JsObj :=
  ((fetchedAtOf p).filter (fun e => !(idsInclude ids e.1))).foldl
    (fun acc e => aset acc e.1 e.2) []

theorem aget_removeRecords_fa (ids : List JVal) (p : Pool) :
    aget (removeRecords ids p) "fetchedAt" = some (PV.obj (keptFetched ids p)) := by
  unfold removeRecords hideFetchedAt keptFetched
  simp only []
  rw [aget_aset, if_pos rfl]

theorem aget_removeRecords (ids : List JVal) (p : Pool) (k : String) (hk : k ≠ "fetchedAt") :
    aget (removeRecords ids p) k =
      lastWith (fun e => e.1) (fun e => e.2) (keptEntries ids p) k := by
  unfold removeRecords hideFetchedAt keptEntries
  simp only []
  rw [aget_aset, if_neg hk, aget_foldl_entries, aget_cons, aget_nil]
  have : ¬("fetchedAt", PV.obj ([] : JsObj)).1 = k := by simpa using fun hh => hk hh.symm
  rw [if_neg this, Option.or_none]

theorem isSome_aget_removeRecords (ids : List JVal) (p : Pool) (k : String)
    (hk : k ≠ "fetchedAt") :
    (aget (removeRecords ids p) k).isSome ↔
      (aget p k).isSome ∧ idsInclude ids k = false := by
  rw [aget_removeRecords ids p k hk, lastWith_isSome]
  constructor
  · rintro ⟨e, he, hek⟩
    have hm := List.mem_filter.mp he
    refine ⟨(isSome_aget p k).mpr (List.mem_map.mpr ⟨e, hm.1, hek⟩), ?_⟩
    have hp := hm.2
    rw [hek] at hp
    simp only [Bool.and_eq_true, Bool.not_eq_true'] at hp
    exact hp.2
  · rintro ⟨hs, hinc⟩
    obtain ⟨e, he, hek⟩ := List.mem_map.mp ((isSome_aget p k).mp hs)
    refine ⟨e, List.mem_filter.mpr ⟨he, ?_⟩, hek⟩
    rw [hek]
    simp [hk, hinc]

/-- Entries of `removeRecords` other than the metadata slot come from the
old pool. -/
theorem mem_removeRecords {ids : List JVal} {p : Pool} {e : String × PV}
    (h : e ∈ removeRecords ids p) (hfa : e.1 ≠ "fetchedAt") : e ∈ p := by
  unfold removeRecords hideFetchedAt at h
  simp only [] at h
  rcases mem_aset h with h1 | h1
  · have h2 := mem_foldl_entries (fun (x : String × PV) => x.1) (fun (x : String × PV) => x.2)
      _ _ _ h1
    rcases h2 with h2 | h2
    · simp only [List.mem_singleton] at h2
      rw [h2] at hfa
      simp at hfa
    · obtain ⟨x, hx, hex⟩ := h2
      have : e = x := by
        cases x
        simpa using hex
      rw [this]
      exact (List.mem_filter.mp hx).1
  · rw [h1] at hfa
    simp at hfa

/-- Entries of the rebuilt metadata map come from the old metadata map. -/
theorem mem_keptFetched {ids : List JVal} {p : Pool} {e : String × JVal}
    (h : e ∈ keptFetched ids p) : e ∈ fetchedAtOf p := by
  unfold keptFetched at h
  have h2 := mem_foldl_entries (fun (x : String × JVal) => x.1) (fun (x : String × JVal) => x.2)
    _ _ _ h
  rcases h2 with h2 | h2
  · simp at h2
  · obtain ⟨x, hx, hex⟩ := h2
    have : e = x := by
      cases x
      simpa using hex
    rw [this]
    exact (List.mem_filter.mp hx).1

theorem isSome_aget_keptFetched (ids : List JVal) (p : Pool) (k : String) :
    (aget (keptFetched ids p) k).isSome ↔
      (aget (fetchedAtOf p) k).isSome ∧ idsInclude ids k = false := by
  unfold keptFetched
  rw [aget_foldl_entries, aget_nil, Option.or_none, lastWith_isSome]
  constructor
  · rintro ⟨e, he, hek⟩
    have hm := List.mem_filter.mp he
    refine ⟨isSome_aget _ k |>.mpr (List.mem_map.mpr ⟨e, hm.1, hek⟩), ?_⟩
    have := hm.2
    rw [hek] at this
    simpa using this
  · rintro ⟨hs, hinc⟩
    obtain ⟨e, he, hek⟩ := List.mem_map.mp ((isSome_aget _ k).mp hs)
    refine ⟨e, List.mem_filter.mpr ⟨he, ?_⟩, hek⟩
    rw [hek]
    simpa using hinc

/-! ### Pool-key lemmas -/

theorem mem_enumKeys (p : Pool) (k : String) :
    k ∈ enumKeys p ↔ k ≠ "fetchedAt" ∧ (aget p k).isSome := by
  unfold enumKeys
  rw [List.mem_filter, isSome_aget]
  constructor
  · rintro ⟨h1, h2⟩
    exact ⟨by simpa using h2, h1⟩
  · rintro ⟨h1, h2⟩
    exact ⟨h2, by simpa using h1⟩

theorem mem_fetchedKeys (p : Pool) (k : String) :
    k ∈ fetchedKeys p ↔ (aget (fetchedAtOf p) k).isSome := by
  unfold fetchedKeys
  rw [isSome_aget]

/-! ### The reachability invariant -/

/-- The invariant maintained by the reducer on id-safe traces: the
`"fetchedAt"` slot holds an object whose entries have non-reserved keys
and numeric values, the enumerable key set and the metadata key set
coincide, and every stored record is id-safe. -/
def PoolInv (p : Pool) : Prop :=
  (∃ m, aget p "fetchedAt" = some (PV.obj m)) ∧
  (∀ e ∈ fetchedAtOf p, e.1 ≠ "fetchedAt" ∧ ∃ n, e.2 = JVal.num n) ∧
  (∀ k, k ≠ "fetchedAt" → ((aget p k).isSome ↔ (aget (fetchedAtOf p) k).isSome)) ∧
  (∀ e ∈ p, e.1 ≠ "fetchedAt" → ∀ r, e.2 = PV.obj r → jsToString (jsGetV r "id") ≠ "fetchedAt")

theorem fetchedAtOf_eq {p : Pool} {m : JsObj} (h : aget p "fetchedAt" = some (PV.obj m)) :
    fetchedAtOf p = m := by
  unfold fetchedAtOf poolGet
  rw [h]
  rfl

theorem poolInv_initial : PoolInv initialState := by
  refine ⟨⟨[], rfl⟩, ?_, ?_, ?_⟩
  · intro e he
    have : fetchedAtOf initialState = [] := rfl
    rw [this] at he
    simp at he
  · intro k hk
    have h1 : aget initialState k = none := by
      unfold initialState hideFetchedAt
      rw [aget_cons, if_neg (fun hh => hk hh.symm), aget_nil]
    have h2 : fetchedAtOf initialState = [] := rfl
    rw [h1, h2, aget_nil]
    exact Iff.rfl
  · intro e he hfa r hr
    unfold initialState hideFetchedAt at he
    simp only [List.mem_singleton] at he
    rw [he] at hfa
    simp at hfa

theorem poolInv_addRecords {p : Pool} {rs : List JsObj} {now : Int}
    (hI : PoolInv p) (hrs : ∀ r ∈ rs, jsToString (jsGetV r "id") ≠ "fetchedAt") :
    PoolInv (addRecords rs p now) := by
  obtain ⟨⟨m, hm⟩, h2, h3, h4⟩ := hI
  have hmF : fetchedAtOf p = m := fetchedAtOf_eq hm
  have hFAkeys : "fetchedAt" ∉ (newFetchedAtOf rs p now).map (fun e => e.1) := by
    intro hmem
    unfold newFetchedAtOf at hmem
    rcases (mem_keys_getFetchedAt _ _ _ _).mp hmem with hnew | hold
    · obtain ⟨i, hi, hik⟩ := List.mem_map.mp hnew
      obtain ⟨r, hr, hri⟩ := List.mem_map.mp hi
      exact hrs r hr (hri ▸ hik)
    · rw [hmF] at hold
      obtain ⟨e, he, hek⟩ := List.mem_map.mp hold
      exact (h2 e (hmF ▸ he)).1 hek
  have hslot : aget (addRecords rs p now) "fetchedAt" =
      some (PV.obj (newFetchedAtOf rs p now)) := by
    rw [aget_addRecords, if_neg hFAkeys, if_pos rfl]
  have hFres : fetchedAtOf (addRecords rs p now) = newFetchedAtOf rs p now :=
    fetchedAtOf_eq hslot
  refine ⟨⟨newFetchedAtOf rs p now, hslot⟩, ?_, ?_, ?_⟩
  · intro e he
    rw [hFres] at he
    unfold newFetchedAtOf at he
    rcases mem_getFetchedAt he with hold | hnew
    · exact h2 e (hmF ▸ hold)
    · obtain ⟨i, hi, hei⟩ := hnew
      obtain ⟨r, hr, hri⟩ := List.mem_map.mp hi
      constructor
      · rw [hei]
        exact hri ▸ hrs r hr
      · rw [hei]
        exact ⟨now, rfl⟩
  · intro k hk
    rw [hFres, aget_addRecords]
    by_cases hkm : k ∈ (newFetchedAtOf rs p now).map (fun e => e.1)
    · rw [if_pos hkm]
      simp [isSome_aget, hkm]
    · rw [if_neg hkm, if_neg hk]
      simp [isSome_aget, hkm]
  · intro e he hfa r hr
    rcases mem_addRecords he with h1 | h1
    · rw [h1] at hfa
      simp at hfa
    · obtain ⟨k, hk, hek⟩ := h1
      rw [hek] at hr
      simp only [] at hr
      unfold mergeVal at hr
      cases hb : byIdOf rs k with
      | some r' =>
          rw [hb] at hr
          have hr' : r = r' := by
            have := hr.symm
            simpa using this
          obtain ⟨x, hx, hxk, hxv⟩ := lastWith_eq_some hb
          rw [hr', hxv]
          exact hrs x hx
      | none =>
          rw [hb] at hr
          unfold poolGet at hr
          cases hg : aget p k with
          | none =>
              rw [hg] at hr
              simp at hr
          | some pv =>
              rw [hg] at hr
              cases pv with
              | undef => simp at hr
              | obj r'' =>
                  have hr'' : r = r'' := by simpa using hr.symm
                  have hkfa : k ≠ "fetchedAt" := by
                    rw [hek] at hfa
                    simpa using hfa
                  have := h4 (k, PV.obj r'') (aget_mem hg) hkfa r'' rfl
                  rw [hr'']
                  exact this

theorem poolInv_removeRecords {p : Pool} {ids : List JVal} (hI : PoolInv p) :
    PoolInv (removeRecords ids p) := by
  obtain ⟨⟨m, hm⟩, h2, h3, h4⟩ := hI
  have hslot := aget_removeRecords_fa ids p
  have hFres : fetchedAtOf (removeRecords ids p) = keptFetched ids p := fetchedAtOf_eq hslot
  refine ⟨⟨keptFetched ids p, hslot⟩, ?_, ?_, ?_⟩
  · intro e he
    rw [hFres] at he
    exact h2 e (mem_keptFetched he)
  · intro k hk
    rw [hFres, isSome_aget_removeRecords ids p k hk, isSome_aget_keptFetched, h3 k hk]
  · intro e he hfa r hr
    exact h4 e (mem_removeRecords he hfa) hfa r hr

/-! ### Safety of the records each branch constructs -/

theorem spread_pool_data_safe {p : Pool} {dat : JsObj} (key : String) (hI : PoolInv p)
    (hd : safeDataB dat = true) :
    jsToString (jsGetV (jsSpread (objOfPV (poolGet p key)) dat) "id") ≠ "fetchedAt" := by
  obtain ⟨⟨m, hm⟩, h2, _, h4⟩ := hI
  have hmF : fetchedAtOf p = m := fetchedAtOf_eq hm
  unfold jsGetV
  rw [aget_jsSpread]
  cases hlw : lastWith (fun e => e.1) (fun e => e.2) dat "id" with
  | some v =>
      obtain ⟨e, he, hek, hv⟩ := lastWith_eq_some hlw
      have := (List.all_eq_true.mp hd) e he
      rw [hek] at this
      simp only [Option.or, Option.getD_some]
      rw [hv]
      simpa using this
  | none =>
      simp only [Option.none_or]
      unfold poolGet
      cases hg : aget p key with
      | none =>
          simp only [Option.getD_none, objOfPV, aget_nil]
          decide
      | some pv =>
          cases pv with
          | undef =>
              simp only [Option.getD_some, objOfPV, aget_nil]
              decide
          | obj r =>
              simp only [Option.getD_some, objOfPV]
              by_cases hkey : key = "fetchedAt"
              · have hrm : r = m := by
                  rw [hkey] at hg
                  rw [hg] at hm
                  simpa using hm
                subst hrm
                cases hid : aget r "id" with
                | none =>
                    simp only [Option.getD_none]
                    decide
                | some v =>
                    have hnum := (h2 (("id", v)) (hmF ▸ aget_mem hid)).2
                    obtain ⟨n, hn⟩ := hnum
                    have hn' : v = JVal.num n := hn
                    simp only [Option.getD_some]
                    rw [hn']
                    exact jsToString_num_ne n
              · have := h4 (key, PV.obj r) (aget_mem hg) hkey r rfl
                unfold jsGetV at this
                exact this

theorem mem_nextSiblings {p : Pool} {a : Action} {r : JsObj}
    (h : r ∈ nextSiblings p a) :
    ∃ id ∈ enumKeys p, siblingCond p a id = true ∧ r = shiftOf p a id := by
  cases hma : a.meta with
  | none =>
      simp only [nextSiblings, hma] at h
      simp at h
  | some meta =>
      simp only [nextSiblings, hma] at h
      by_cases ht : optTruthy meta.positionSource
      · rw [if_pos ht] at h
        obtain ⟨id, hid, hidr⟩ := List.mem_map.mp h
        have hf := List.mem_filter.mp hid
        exact ⟨id, hf.1, hf.2, hidr.symm⟩
      · rw [if_neg ht] at h
        simp at h

theorem shiftOf_safe {p : Pool} (a : Action) (hI : PoolInv p) {id : String}
    (hid : id ≠ "fetchedAt") :
    jsToString (jsGetV (shiftOf p a id) "id") ≠ "fetchedAt" := by
  obtain ⟨_, _, _, h4⟩ := hI
  have hbase : jsToString (jsGetV (objOfPV (poolGet p id)) "id") ≠ "fetchedAt" := by
    unfold poolGet
    cases hg : aget p id with
    | none =>
        simp only [Option.getD_none, objOfPV, jsGetV, aget_nil]
        decide
    | some pv =>
        cases pv with
        | undef =>
            simp only [Option.getD_some, objOfPV, jsGetV, aget_nil]
            decide
        | obj r => exact h4 (id, PV.obj r) (aget_mem hg) hid r rfl
  cases hma : a.meta with
  | none =>
      simp only [shiftOf, hma]
      exact hbase
  | some meta =>
      simp only [shiftOf, hma]
      rw [jsGetV_aset]
      by_cases hpk : "id" = srcKey meta.positionSource
      · rw [if_pos hpk]
        exact jsToString_jsAdd1_ne _
      · rw [if_neg hpk]
        exact hbase

/-! ### Invariant preservation through the reducer -/

theorem poolInv_fetchBranch {p : Pool} {a : Action} {now : Int}
    (hI : PoolInv p) (hs : SafeActionB a = true) : PoolInv (fetchBranch p a now) := by
  have hsplit := (Bool.and_eq_true _ _).mp hs
  have hsd : safeDataB a.payload.data.toObj = true := hsplit.1
  have hsa : ∀ r ∈ a.payload.data.toArr, safeDataB r = true :=
    fun r hr => (List.all_eq_true.mp hsplit.2) r hr
  cases hma : a.meta with
  | none =>
      simp only [fetchBranch, hma]
      exact hI
  | some meta =>
      simp only [fetchBranch, hma]
      by_cases hg : optTruthy meta.fetchResponse = false ∨ meta.fetchStatus ≠ some FETCH_END
      · rw [if_pos hg]
        exact hI
      · rw [if_neg hg]
        cases hfr : meta.fetchResponse with
        | none => exact hI
        | some fr =>
            simp only []
            by_cases hb : fr = GET_TREE_ROOT_NODES ∨ fr = GET_TREE_CHILDREN_NODES ∨
                fr = GET_LIST ∨ fr = GET_MANY ∨ fr = GET_MANY_REFERENCE
            · rw [if_pos hb]
              exact poolInv_addRecords hI (fun r hr => safeDataB_id (hsa r hr))
            · rw [if_neg hb]
              by_cases hone : fr = GET_ONE ∨ fr = UPDATE ∨ fr = CREATE
              · rw [if_pos hone]
                refine poolInv_addRecords hI ?_
                intro r hr
                simp only [List.mem_singleton] at hr
                rw [hr]
                exact safeDataB_id hsd
              · rw [if_neg hone]
                exact hI

theorem poolInv_step {p : Pool} (a : Action) (now : Int)
    (hI : PoolInv p) (hs : SafeActionB a = true) : PoolInv (dataReducer p a now) := by
  have hsplit := (Bool.and_eq_true _ _).mp hs
  have hsd : safeDataB a.payload.data.toObj = true := hsplit.1
  cases hma : a.meta with
  | none =>
      simp only [dataReducer, hma]
      exact hI
  | some meta =>
      simp only [dataReducer, hma]
      by_cases hopt : meta.optimistic = true
      · rw [if_pos hopt]
        by_cases hf1 : meta.fetch = some UPDATE ∨ meta.fetch = some MOVE_NODE
        · rw [if_pos hf1]
          refine poolInv_addRecords hI ?_
          intro r hr
          rcases List.mem_cons.mp hr with h | h
          · rw [h]
            unfold updatedRecord
            exact spread_pool_data_safe _ ⟨hI.1, hI.2.1, hI.2.2.1, hI.2.2.2⟩ hsd
          · obtain ⟨id, hid, _, hry⟩ := mem_nextSiblings h
            rw [hry]
            exact shiftOf_safe a ⟨hI.1, hI.2.1, hI.2.2.1, hI.2.2.2⟩
              ((mem_enumKeys p id).mp hid).1
        · rw [if_neg hf1]
          by_cases hf2 : meta.fetch = some UPDATE_MANY
          · rw [if_pos hf2]
            refine poolInv_addRecords hI ?_
            intro r hr
            obtain ⟨i, _, hir⟩ := List.mem_map.mp hr
            rw [← hir]
            exact spread_pool_data_safe _ ⟨hI.1, hI.2.1, hI.2.2.1, hI.2.2.2⟩ hsd
          · rw [if_neg hf2]
            by_cases hf3 : meta.fetch = some DELETE
            · rw [if_pos hf3]
              exact poolInv_removeRecords hI
            · rw [if_neg hf3]
              by_cases hf4 : meta.fetch = some DELETE_MANY
              · rw [if_pos hf4]
                exact poolInv_removeRecords hI
              · rw [if_neg hf4]
                exact poolInv_fetchBranch hI hs
      · rw [if_neg hopt]
        exact poolInv_fetchBranch hI hs

theorem poolInv_safeReachable {p : Pool} (h : SafeReachable p) : PoolInv p := by
  induction h with
  | init => exact poolInv_initial
  | step a now hs _ ih => exact poolInv_step a now ih hs

theorem poolInv_keySetEq {p : Pool} (hI : PoolInv p) :
    ∀ k, k ∈ enumKeys p ↔ k ∈ fetchedKeys p := by
  intro k
  rw [mem_enumKeys, mem_fetchedKeys]
  by_cases hk : k = "fetchedAt"
  · subst hk
    constructor
    · rintro ⟨h, _⟩
      exact absurd rfl h
    · intro h
      exfalso
      obtain ⟨e, he, hek⟩ := List.mem_map.mp ((isSome_aget _ _).mp h)
      exact (hI.2.1 e he).1 hek
  · rw [hI.2.2.1 k hk]
    simp [hk]

/-! ### Decidable well-formedness bridge -/

theorem poolInv_of_wfB {p : Pool} (h : WfB p = true) : PoolInv p := by
  unfold WfB at h
  rw [Bool.and_eq_true, Bool.and_eq_true, Bool.and_eq_true] at h
  obtain ⟨⟨⟨hA, hB⟩, hC⟩, hD⟩ := h
  have hm : ∃ m, aget p "fetchedAt" = some (PV.obj m) ∧
      m.all (fun e =>
        !(e.1 == "fetchedAt") &&
        (match e.2 with
         | JVal.num _ => true
         | _ => false)) = true := by
    cases hg : aget p "fetchedAt" with
    | none =>
        rw [hg] at hA
        simp at hA
    | some pv =>
        cases pv with
        | undef =>
            rw [hg] at hA
            simp at hA
        | obj m =>
            rw [hg] at hA
            exact ⟨m, rfl, hA⟩
  obtain ⟨m, hm1, hm2⟩ := hm
  have hmF : fetchedAtOf p = m := fetchedAtOf_eq hm1
  have hkeq : ∀ k, k ∈ enumKeys p ↔ k ∈ fetchedKeys p := by
    intro k
    constructor
    · intro hk
      have := List.all_eq_true.mp hB k hk
      simpa using this
    · intro hk
      have := List.all_eq_true.mp hC k hk
      simpa using this
  refine ⟨⟨m, hm1⟩, ?_, ?_, ?_⟩
  · intro e he
    rw [hmF] at he
    have he2 := List.all_eq_true.mp hm2 e he
    rw [Bool.and_eq_true] at he2
    refine ⟨by simpa using he2.1, ?_⟩
    cases hv : e.2 with
    | num n => exact ⟨n, rfl⟩
    | str s =>
        rw [hv] at he2
        simp at he2
    | undef =>
        rw [hv] at he2
        simp at he2
    | nan =>
        rw [hv] at he2
        simp at he2
  · intro k hk
    have h1 := hkeq k
    rw [mem_enumKeys, mem_fetchedKeys] at h1
    constructor
    · intro hs
      exact h1.mp ⟨hk, hs⟩
    · intro hs
      exact (h1.mpr hs).2
  · intro e he hfa r hr
    have := List.all_eq_true.mp hD e he
    rcases Bool.or_eq_true _ _ |>.mp this with h1 | h1
    · exact absurd (by simpa using h1) hfa
    · rw [hr] at h1
      simpa using h1

/-! ### Claim C1 -/

/-- The optimistic update whose partial data carries the record id
`"fetchedAt"`: merging it clobbers the metadata slot. -/
def c1Action : Action :=
  ⟨⟨JVal.num 1, [], PData.obj [("id", JVal.str "fetchedAt")]⟩,
   some ⟨true, some UPDATE, Option.none, Option.none, Option.none, Option.none⟩⟩

/-- C1 counterexample: the pool reached from the initial state by a single
optimistic update whose data is `{id: "fetchedAt"}` stores the record in
the (non-enumerable) `fetchedAt` slot itself, so its enumerable record key
set (empty) differs from the key set of the object sitting in the
metadata slot (`{"id"}`): the claimed key-set equality fails on a
reachable pool. -/
theorem c1_counterexample :
    Reachable (dataReducer initialState c1Action 7) ∧
      ¬(∀ k, k ∈ enumKeys (dataReducer initialState c1Action 7) ↔
          k ∈ fetchedKeys (dataReducer initialState c1Action 7)) := by
  constructor
  · exact Reachable.step c1Action 7 Reachable.init
  · intro h
    have h1 : "id" ∈ fetchedKeys (dataReducer initialState c1Action 7) := by decide
    have h2 := (h "id").mpr h1
    have h3 : "id" ∉ enumKeys (dataReducer initialState c1Action 7) := by decide
    exact h3 h2

/-- C1 (amended): for every pool reachable from the initial empty pool by
reduce calls whose events never carry record data with an `id` field that
stringifies to the reserved key `"fetchedAt"`, the set of record
identifiers stored in the pool equals the set of identifiers in its
`fetchedAt` metadata map. -/
theorem c1_key_set_consistency {p : Pool} (h : SafeReachable p) :
    ∀ k, k ∈ enumKeys p ↔ k ∈ fetchedKeys p :=
  poolInv_keySetEq (poolInv_safeReachable h)

/-- An ordinary id-safe optimistic update used by the C1 witness. -/
def c1SafeAction : Action :=
  ⟨⟨JVal.num 1, [], PData.obj [("id", JVal.num 1), ("title", JVal.str "hello")]⟩,
   some ⟨true, some UPDATE, Option.none, Option.none, Option.none, Option.none⟩⟩

theorem c1_key_set_consistency_witness :
    SafeReachable (dataReducer initialState c1SafeAction 3) ∧
      (∀ k, k ∈ enumKeys (dataReducer initialState c1SafeAction 3) ↔
          k ∈ fetchedKeys (dataReducer initialState c1SafeAction 3)) := by
  have hs : SafeReachable (dataReducer initialState c1SafeAction 3) :=
    SafeReachable.step c1SafeAction 3 (by decide) SafeReachable.init
  exact ⟨hs, c1_key_set_consistency hs⟩

/-! ### Claim C10 -/

theorem fa_obj_addRecords {p : Pool} (rs : List JsObj) (now : Int)
    (h : ∃ m, aget p "fetchedAt" = some (PV.obj m)) :
    ∃ m, aget (addRecords rs p now) "fetchedAt" = some (PV.obj m) := by
  obtain ⟨m', hm'⟩ := h
  rw [aget_addRecords]
  by_cases hk : "fetchedAt" ∈ (newFetchedAtOf rs p now).map (fun e => e.1)
  · rw [if_pos hk]
    unfold mergeVal
    cases hb : byIdOf rs "fetchedAt" with
    | some r => exact ⟨r, rfl⟩
    | none =>
        unfold poolGet
        rw [hm']
        exact ⟨m', rfl⟩
  · rw [if_neg hk, if_pos rfl]
    exact ⟨_, rfl⟩

theorem fa_obj_fetchBranch {p : Pool} (a : Action) (now : Int)
    (h : ∃ m, aget p "fetchedAt" = some (PV.obj m)) :
    ∃ m, aget (fetchBranch p a now) "fetchedAt" = some (PV.obj m) := by
  cases hma : a.meta with
  | none =>
      simp only [fetchBranch, hma]
      exact h
  | some meta =>
      simp only [fetchBranch, hma]
      by_cases hg : optTruthy meta.fetchResponse = false ∨ meta.fetchStatus ≠ some FETCH_END
      · rw [if_pos hg]
        exact h
      · rw [if_neg hg]
        cases hfr : meta.fetchResponse with
        | none => exact h
        | some fr =>
            simp only []
            by_cases hb : fr = GET_TREE_ROOT_NODES ∨ fr = GET_TREE_CHILDREN_NODES ∨
                fr = GET_LIST ∨ fr = GET_MANY ∨ fr = GET_MANY_REFERENCE
            · rw [if_pos hb]
              exact fa_obj_addRecords _ _ h
            · rw [if_neg hb]
              by_cases hone : fr = GET_ONE ∨ fr = UPDATE ∨ fr = CREATE
              · rw [if_pos hone]
                exact fa_obj_addRecords _ _ h
              · rw [if_neg hone]
                exact h

theorem reachable_fa_obj {p : Pool} (h : Reachable p) :
    ∃ m, aget p "fetchedAt" = some (PV.obj m) := by
  induction h with
  | init => exact ⟨[], rfl⟩
  | step a now _ ih =>
      cases hma : a.meta with
      | none =>
          simp only [dataReducer, hma]
          exact ih
      | some meta =>
          simp only [dataReducer, hma]
          by_cases hopt : meta.optimistic = true
          · rw [if_pos hopt]
            by_cases hf1 : meta.fetch = some UPDATE ∨ meta.fetch = some MOVE_NODE
            · rw [if_pos hf1]
              exact fa_obj_addRecords _ _ ih
            · rw [if_neg hf1]
              by_cases hf2 : meta.fetch = some UPDATE_MANY
              · rw [if_pos hf2]
                exact fa_obj_addRecords _ _ ih
              · rw [if_neg hf2]
                by_cases hf3 : meta.fetch = some DELETE
                · rw [if_pos hf3]
                  exact ⟨_, aget_removeRecords_fa _ _⟩
                · rw [if_neg hf3]
                  by_cases hf4 : meta.fetch = some DELETE_MANY
                  · rw [if_pos hf4]
                    exact ⟨_, aget_removeRecords_fa _ _⟩
                  · rw [if_neg hf4]
                    exact fa_obj_fetchBranch _ _ ih
          · rw [if_neg hopt]
            exact fa_obj_fetchBranch _ _ ih

/-- C10: on every reachable pool, `getRecord` called with the identifier
string `"fetchedAt"` returns the metadata map object itself (never
`undefined`), even though `"fetchedAt"` is hidden from enumeration of the
pool's record keys. -/
theorem c10_getRecord_fetchedAt {p : Pool} (h : Reachable p) :
    getRecord p (JVal.str "fetchedAt") = some (PV.obj (fetchedAtOf p)) ∧
      "fetchedAt" ∉ enumKeys p := by
  obtain ⟨m, hm⟩ := reachable_fa_obj h
  constructor
  · unfold getRecord
    have hstr : jsToString (JVal.str "fetchedAt") = "fetchedAt" := rfl
    rw [hstr, hm, fetchedAtOf_eq hm]
  · intro hmem
    exact ((mem_enumKeys p "fetchedAt").mp hmem).1 rfl

theorem c10_getRecord_fetchedAt_witness :
    Reachable initialState ∧
      (getRecord initialState (JVal.str "fetchedAt") =
          some (PV.obj (fetchedAtOf initialState)) ∧
        "fetchedAt" ∉ enumKeys initialState) :=
  ⟨Reachable.init, c10_getRecord_fetchedAt Reachable.init⟩

/-! ### Claim C6 -/

/-- The event is a recognized optimistic mutation (the exact dispatch test
of the reducer's optimistic block). -/
def optimisticRecognizedB (a : Action) : Bool :=
  match a.meta with
  | some m =>
      m.optimistic &&
      (m.fetch == some UPDATE || m.fetch == some MOVE_NODE || m.fetch == some UPDATE_MANY ||
        m.fetch == some DELETE || m.fetch == some DELETE_MANY)
  | Option.none => false

/-- The event is an actionable settled fetch with a recognized response
kind (the exact dispatch test of the reducer's settled part). -/
def settledRecognizedB (a : Action) : Bool :=
  match a.meta with
  | some m =>
      optTruthy m.fetchResponse && (m.fetchStatus == some FETCH_END) &&
      (m.fetchResponse == some GET_TREE_ROOT_NODES ||
        m.fetchResponse == some GET_TREE_CHILDREN_NODES ||
        m.fetchResponse == some GET_LIST || m.fetchResponse == some GET_MANY ||
        m.fetchResponse == some GET_MANY_REFERENCE || m.fetchResponse == some GET_ONE ||
        m.fetchResponse == some UPDATE || m.fetchResponse == some CREATE)
  | Option.none => false

theorem fetchBranch_noop {p : Pool} {a : Action} {now : Int}
    (h : settledRecognizedB a = false) : fetchBranch p a now = p := by
  cases hma : a.meta with
  | none => simp only [fetchBranch, hma]
  | some m =>
      simp only [fetchBranch, hma]
      unfold settledRecognizedB at h
      rw [hma] at h
      simp only [] at h
      by_cases hg : optTruthy m.fetchResponse = false ∨ m.fetchStatus ≠ some FETCH_END
      · rw [if_pos hg]
      · rw [if_neg hg]
        push_neg at hg
        obtain ⟨hg1, hg2⟩ := hg
        have ht : optTruthy m.fetchResponse = true := by
          cases hv : optTruthy m.fetchResponse
          · exact absurd hv hg1
          · rfl
        have hst : (m.fetchStatus == some FETCH_END) = true := by
          rw [hg2]
          simp
        rw [ht, hst] at h
        simp only [Bool.true_and] at h
        cases hfr : m.fetchResponse with
        | none => rfl
        | some fr =>
            simp only []
            rw [hfr] at h
            simp only [Bool.or_eq_false_iff] at h
            obtain ⟨⟨⟨⟨⟨⟨⟨hb1, hb2⟩, hb3⟩, hb4⟩, hb5⟩, hb6⟩, hb7⟩, hb8⟩ := h
            rw [if_neg, if_neg]
            · rintro (h | h | h) <;> simp [h] at hb6 hb7 hb8
            · rintro (h | h | h | h | h) <;> simp [h] at hb1 hb2 hb3 hb4 hb5

/-- C6 (amended): the reducer is a total function in the embedding; an
event that is not a recognized optimistic mutation and not an actionable
settled fetch with a recognized response kind returns the input pool
itself (hence a deeply equal pool).  An event that mixes the two classes —
e.g. optimistic with an unrecognized mutation kind but also carrying a
completed recognized fetch response — falls through to the settled-fetch
handling instead of being a no-op. -/
theorem c6_unrecognized_noop (p : Pool) (a : Action) (now : Int)
    (h1 : optimisticRecognizedB a = false)
    (h2 : settledRecognizedB a = false) :
    dataReducer p a now = p := by
  cases hma : a.meta with
  | none => simp only [dataReducer, hma]
  | some m =>
      simp only [dataReducer, hma]
      unfold optimisticRecognizedB at h1
      rw [hma] at h1
      simp only [] at h1
      by_cases hopt : m.optimistic = true
      · rw [if_pos hopt]
        rw [hopt] at h1
        simp only [Bool.true_and, Bool.or_eq_false_iff] at h1
        obtain ⟨⟨⟨⟨ha1, ha2⟩, ha3⟩, ha4⟩, ha5⟩ := h1
        rw [if_neg, if_neg, if_neg, if_neg]
        · exact fetchBranch_noop h2
        · intro h
          rw [h] at ha5
          simp at ha5
        · intro h
          rw [h] at ha4
          simp at ha4
        · intro h
          rw [h] at ha3
          simp at ha3
        · rintro (h | h)
          · rw [h] at ha1
            simp at ha1
          · rw [h] at ha2
            simp at ha2
      · rw [if_neg hopt]
        exact fetchBranch_noop h2

/-- An optimistic event with an unrecognized mutation kind that also
carries a completed `GET_LIST` response. -/
def c6Action : Action :=
  ⟨⟨JVal.undef, [], PData.arr [[("id", JVal.num 1)]]⟩,
   some ⟨true, some "UNRECOGNIZED", Option.none, Option.none, some GET_LIST, some FETCH_END⟩⟩

/-- C6 counterexample: an event whose mutation kind is unrecognized is
claimed to be an identity transform, but when it also carries a completed
recognized fetch response the optimistic block falls through and the
response is merged: the resulting pool differs from the input pool at key
`"1"`. -/
theorem c6_counterexample :
    optimisticRecognizedB c6Action = false ∧
      ¬(∀ k, aget (dataReducer initialState c6Action 5) k = aget initialState k) := by
  refine ⟨by decide, ?_⟩
  intro h
  exact absurd (h "1") (by decide)

def c6NoopAction : Action :=
  ⟨⟨JVal.undef, [], PData.none⟩,
   some ⟨true, some "UNRECOGNIZED", Option.none, Option.none, some GET_LIST,
    some "RA/FETCH_START"⟩⟩

theorem c6_unrecognized_noop_witness :
    (optimisticRecognizedB c6NoopAction = false ∧ settledRecognizedB c6NoopAction = false) ∧
      dataReducer initialState c6NoopAction 5 = initialState :=
  ⟨⟨by decide, by decide⟩, c6_unrecognized_noop initialState c6NoopAction 5
    (by decide) (by decide)⟩

/-! ### Claim C3 -/

/-- The pool `{12: {id: 12}}` with metadata `{12: 3}`, reached by merging
the record `{id: 12}` (the module's own doc-comment example uses numeric
identifiers). -/
def c3Pool : Pool := addRecords [[("id", JVal.num 12)]] initialState 3

/-- An optimistic DELETE for the numeric identifier `12`. -/
def c3DeleteAction : Action :=
  ⟨⟨JVal.num 12, [], PData.none⟩,
   some ⟨true, some DELETE, Option.none, Option.none, Option.none, Option.none⟩⟩

/-- C3 (code-bug evaluation): on the pool holding the record with numeric
id `12`, the optimistic delete of `12` removes nothing — `Array.includes`
compares the numeric identifier against the (string) object keys with
strict equality, so no key matches.  `getRecord` still returns the record
afterwards and `"12"` is still in both key sets, contradicting the
claimed (and specified) eviction. -/
theorem c3_numeric_delete_bug :
    getRecord c3Pool (JVal.num 12) = some (PV.obj [("id", JVal.num 12)]) ∧
      getRecord (dataReducer c3Pool c3DeleteAction 9) (JVal.num 12) =
        some (PV.obj [("id", JVal.num 12)]) ∧
      "12" ∈ enumKeys (dataReducer c3Pool c3DeleteAction 9) ∧
      "12" ∈ fetchedKeys (dataReducer c3Pool c3DeleteAction 9) := by
  exact ⟨by decide, by decide, by decide, by decide⟩

/-! ### Claim C4 -/

/-- C4: merging the empty record list into a (well-formed, non-empty)
pool leaves every lookup — record contents and metadata timestamps —
unchanged. -/
theorem c4_empty_merge (p : Pool) (now : Int) (hw : WfB p = true)
    (hne : enumKeys p ≠ []) :
    ∀ k, aget (addRecords [] p now) k = aget p k := by
  obtain ⟨⟨m, hm⟩, h2, h3, _⟩ := poolInv_of_wfB hw
  have hmF := fetchedAtOf_eq hm
  intro k
  rw [aget_addRecords]
  have hNF : newFetchedAtOf [] p now = fetchedAtOf p := rfl
  by_cases hk : k = "fetchedAt"
  · subst hk
    have hknot : "fetchedAt" ∉ (newFetchedAtOf [] p now).map (fun e => e.1) := by
      rw [hNF]
      intro hc
      obtain ⟨e, he, hek⟩ := List.mem_map.mp hc
      exact (h2 e he).1 hek
    rw [if_neg hknot, if_pos rfl, hNF, hmF, hm]
  · by_cases hkm : k ∈ (newFetchedAtOf [] p now).map (fun e => e.1)
    · rw [if_pos hkm]
      have hsome : (aget p k).isSome := by
        rw [h3 k hk]
        rw [hNF] at hkm
        exact (isSome_aget _ _).mpr hkm
      obtain ⟨pv, hpv⟩ := Option.isSome_iff_exists.mp hsome
      have hbid : byIdOf ([] : List JsObj) k = none := rfl
      unfold mergeVal
      rw [hbid]
      unfold poolGet
      rw [hpv]
      rfl
    · rw [if_neg hkm, if_neg hk]
      have hnone : ¬(aget p k).isSome := by
        rw [h3 k hk]
        rw [hNF] at hkm
        exact fun hs => hkm ((isSome_aget _ _).mp hs)
      exact (Option.not_isSome_iff_eq_none.mp hnone).symm

/-- A two-slot pool used by several witnesses. -/
def c4Pool : Pool :=
  [("fetchedAt", PV.obj [("1", JVal.num 0)]), ("1", PV.obj [("id", JVal.num 1)])]

theorem c4_empty_merge_witness :
    (WfB c4Pool = true ∧ enumKeys c4Pool ≠ []) ∧
      ∀ k, aget (addRecords [] c4Pool 5) k = aget c4Pool k :=
  ⟨⟨by decide, by decide⟩, c4_empty_merge c4Pool 5 (by decide) (by decide)⟩

/-! ### Claim C5 -/

/-- C5: merging a record whose identifier is already present replaces the
stored record with the incoming one and stamps the metadata entry with
the current instant, which is strictly later than the previous timestamp
under the monotone-clock assumption `t < now`. -/
theorem c5_refresh_overwrite (p : Pool) (r : JsObj) (x : String) (oldRec : JsObj)
    (t now : Int) (hw : WfB p = true)
    (hx : jsToString (jsGetV r "id") = x) (hxfa : x ≠ "fetchedAt")
    (hold : aget p x = some (PV.obj oldRec))
    (ht : aget (fetchedAtOf p) x = some (JVal.num t))
    (hclock : t < now) :
    aget (addRecords [r] p now) x = some (PV.obj r) ∧
      aget (fetchedAtOf (addRecords [r] p now)) x = some (JVal.num now) ∧ t < now := by
  obtain ⟨⟨m, hm⟩, h2, _, _⟩ := poolInv_of_wfB hw
  have hxid : x ∈ (([r].map (fun r => jsGetV r "id")).map jsToString) := by
    simp [hx]
  have hknot : "fetchedAt" ∉ (newFetchedAtOf [r] p now).map (fun e => e.1) := by
    unfold newFetchedAtOf
    intro hc
    rcases (mem_keys_getFetchedAt _ _ _ _).mp hc with hl | hr2
    · simp only [List.map_map, List.map_cons, List.map_nil, List.mem_singleton] at hl
      exact hxfa (hx ▸ hl.symm) |>.elim
    · obtain ⟨e, he, hek⟩ := List.mem_map.mp hr2
      exact (h2 e he).1 hek
  have hslot : aget (addRecords [r] p now) "fetchedAt" =
      some (PV.obj (newFetchedAtOf [r] p now)) := by
    rw [aget_addRecords, if_neg hknot, if_pos rfl]
  have hxm : x ∈ (newFetchedAtOf [r] p now).map (fun e => e.1) := by
    unfold newFetchedAtOf
    rw [mem_keys_getFetchedAt]
    left
    simpa using hxid
  have hbid : byIdOf [r] x = some r := by
    unfold byIdOf lastWith
    simp [hx]
  refine ⟨?_, ?_, hclock⟩
  · rw [aget_addRecords, if_pos hxm]
    unfold mergeVal
    rw [hbid]
  · rw [fetchedAtOf_eq hslot]
    unfold newFetchedAtOf
    rw [aget_getFetchedAt, if_pos (by simpa using hxid)]

theorem c5_refresh_overwrite_witness :
    (WfB c4Pool = true ∧
      jsToString (jsGetV [("id", JVal.num 1), ("title", JVal.str "b")] "id") = "1" ∧
      aget c4Pool "1" = some (PV.obj [("id", JVal.num 1)]) ∧
      aget (fetchedAtOf c4Pool) "1" = some (JVal.num 0) ∧ (0 : Int) < 5) ∧
      (aget (addRecords [[("id", JVal.num 1), ("title", JVal.str "b")]] c4Pool 5) "1" =
          some (PV.obj [("id", JVal.num 1), ("title", JVal.str "b")]) ∧
        aget (fetchedAtOf (addRecords [[("id", JVal.num 1), ("title", JVal.str "b")]]
            c4Pool 5)) "1" = some (JVal.num 5) ∧ (0 : Int) < 5) :=
  ⟨⟨by decide, by decide, by decide, by decide, by decide⟩,
    c5_refresh_overwrite c4Pool [("id", JVal.num 1), ("title", JVal.str "b")] "1"
      [("id", JVal.num 1)] 0 5 (by decide) (by decide) (by decide) (by decide)
      (by decide) (by decide)⟩

/-- When every record of `rs` is the same object `c` keyed at `k`, the
by-id lookup at `k` yields `c`. -/
theorem byIdOf_all_eq {rs : List JsObj} {c : JsObj} {k : String} (hne : rs ≠ [])
    (hall : ∀ x ∈ rs, x = c) (hk : jsToString (jsGetV c "id") = k) :
    byIdOf rs k = some c := by
  unfold byIdOf lastWith
  cases hrev : rs.reverse with
  | nil => exact absurd (List.reverse_eq_nil_iff.mp hrev) hne
  | cons x xs =>
      have hx : x = c := hall x (List.mem_reverse.mp (hrev ▸ List.mem_cons_self x xs))
      have hpc : (jsToString (jsGetV c "id") == k) = true := by
        rw [hk]
        simp
      rw [hx]
      simp [List.find?_cons, hpc]

/-! ### Claim C7 -/

/-- An optimistic update whose partial data carries no id field. -/
def c7Action : Action :=
  ⟨⟨JVal.num 1, [], PData.obj [("title", JVal.str "b")]⟩,
   some ⟨true, some UPDATE, Option.none, Option.none, Option.none, Option.none⟩⟩

/-- C7 counterexample: updating the absent identifier `1` with partial
data `{title: "b"}` does not fail, but the merged record is stored under
the key derived from its own (absent, hence `undefined`) id field — the
key `"undefined"` — and the pool still has nothing at the target
identifier, contradicting the claim as stated. -/
theorem c7_counterexample :
    aget initialState "1" = none ∧
      getRecord (dataReducer initialState c7Action 3) (JVal.num 1) = none ∧
      aget (dataReducer initialState c7Action 3) "undefined" =
        some (PV.obj [("title", JVal.str "b")]) := by
  exact ⟨by decide, by decide, by decide⟩

/-- C7 (amended): for an optimistic update (or update-many) on identifiers
absent from the pool, the reducer does not fail, and — provided the merged
record's id field stringifies to the target identifier — the resulting
pool's record at that identifier is exactly the event's partial data
shallow-merged onto an empty base. -/
theorem c7_update_absent (p : Pool) (a : Action) (m : Meta) (now : Int) (dat : JsObj)
    (hm : a.meta = some m) (hopt : m.optimistic = true)
    (hdat : a.payload.data = PData.obj dat)
    (hid : jsToString (jsGetV (jsSpread [] dat) "id") = jsToString a.payload.id)
    (habs : aget p (jsToString a.payload.id) = none)
    (hcase : (m.fetch = some UPDATE ∧ optTruthy m.positionSource = false) ∨
      (m.fetch = some UPDATE_MANY ∧ a.payload.ids ≠ [] ∧
        ∀ i ∈ a.payload.ids, jsToString i = jsToString a.payload.id)) :
    aget (dataReducer p a now) (jsToString a.payload.id) =
      some (PV.obj (jsSpread [] dat)) := by
  rcases hcase with ⟨hf, hpos⟩ | ⟨hf, hne, hall⟩
  · -- single UPDATE
    have hns : nextSiblings p a = [] := by
      simp [nextSiblings, hm, hpos]
    have hupd : updatedRecord p a = jsSpread [] dat := by
      unfold updatedRecord poolGet
      rw [habs, hdat]
      rfl
    have hred : dataReducer p a now = addRecords [jsSpread [] dat] p now := by
      simp only [dataReducer, hm]
      rw [if_pos hopt, if_pos (Or.inl hf), hns, hupd]
    rw [hred, aget_addRecords]
    have hkeymem : jsToString a.payload.id ∈
        (newFetchedAtOf [jsSpread [] dat] p now).map (fun e => e.1) := by
      unfold newFetchedAtOf
      rw [mem_keys_getFetchedAt]
      left
      simp [hid]
    rw [if_pos hkeymem]
    have hbid : byIdOf [jsSpread [] dat] (jsToString a.payload.id) =
        some (jsSpread [] dat) := by
      unfold byIdOf lastWith
      simp [List.find?_cons, hid]
    unfold mergeVal
    rw [hbid]
  · -- UPDATE_MANY with every target id absent
    have hnotupd : ¬(m.fetch = some UPDATE ∨ m.fetch = some MOVE_NODE) := by
      rintro (h | h) <;> rw [h] at hf <;> exact absurd (Option.some.inj hf) (by decide)
    have hrs : a.payload.ids.map (fun i =>
        jsSpread (objOfPV (poolGet p (jsToString i))) a.payload.data.toObj) =
        a.payload.ids.map (fun _ => jsSpread [] dat) := by
      apply List.map_congr_left
      intro i hi
      rw [hall i hi, hdat]
      unfold poolGet
      rw [habs]
      rfl
    have hred : dataReducer p a now =
        addRecords (a.payload.ids.map (fun _ => jsSpread [] dat)) p now := by
      simp only [dataReducer, hm]
      rw [if_pos hopt, if_neg hnotupd, if_pos hf, hrs]
    rw [hred, aget_addRecords]
    obtain ⟨i0, his⟩ := List.exists_mem_of_ne_nil _ hne
    have hmemrs : jsSpread [] dat ∈ a.payload.ids.map (fun _ => jsSpread [] dat) :=
      List.mem_map.mpr ⟨i0, his, rfl⟩
    have hkeymem : jsToString a.payload.id ∈
        (newFetchedAtOf (a.payload.ids.map (fun _ => jsSpread [] dat)) p now).map
          (fun e => e.1) := by
      unfold newFetchedAtOf
      rw [mem_keys_getFetchedAt]
      left
      rw [List.map_map]
      exact List.mem_map.mpr ⟨jsSpread [] dat, hmemrs, hid⟩
    rw [if_pos hkeymem]
    have hbid : byIdOf (a.payload.ids.map (fun _ => jsSpread [] dat))
        (jsToString a.payload.id) = some (jsSpread [] dat) := by
      apply byIdOf_all_eq
      · simpa using hne
      · intro x hx
        obtain ⟨i, _, hix⟩ := List.mem_map.mp hx
        exact hix.symm
      · exact hid
    unfold mergeVal
    rw [hbid]

/-! ### Claim C8 -/

theorem c8_plain_update (p : Pool) (a : Action) (m : Meta) (now : Int)
    (hw : WfB p = true) (hm : a.meta = some m) (hopt : m.optimistic = true)
    (hf : m.fetch = some UPDATE ∨ m.fetch = some MOVE_NODE)
    (hpos : optTruthy m.positionSource = false)
    (hfa : jsToString (jsGetV (updatedRecord p a) "id") ≠ "fetchedAt") :
    aget (dataReducer p a now) (jsToString (jsGetV (updatedRecord p a) "id")) =
        some (PV.obj (updatedRecord p a)) ∧
      ∀ k, k ≠ jsToString (jsGetV (updatedRecord p a) "id") → k ≠ "fetchedAt" →
        aget (dataReducer p a now) k = aget p k := by
  obtain ⟨⟨mm, hmm⟩, h2, h3, _⟩ := poolInv_of_wfB hw
  have hns : nextSiblings p a = [] := by
    simp [nextSiblings, hm, hpos]
  have hred : dataReducer p a now = addRecords [updatedRecord p a] p now := by
    simp only [dataReducer, hm]
    rw [if_pos hopt, if_pos hf, hns]
  constructor
  · rw [hred, aget_addRecords]
    have hkeymem : jsToString (jsGetV (updatedRecord p a) "id") ∈
        (newFetchedAtOf [updatedRecord p a] p now).map (fun e => e.1) := by
      unfold newFetchedAtOf
      rw [mem_keys_getFetchedAt]
      left
      simp
    rw [if_pos hkeymem]
    have hbid : byIdOf [updatedRecord p a] (jsToString (jsGetV (updatedRecord p a) "id")) =
        some (updatedRecord p a) := by
      unfold byIdOf lastWith
      simp [List.find?_cons]
    unfold mergeVal
    rw [hbid]
  · intro k hk hkfa
    rw [hred, aget_addRecords]
    have hbid0 : byIdOf [updatedRecord p a] k = none := by
      unfold byIdOf lastWith
      have hb : (jsToString (jsGetV (updatedRecord p a) "id") == k) = false := by
        simp only [beq_eq_false_iff_ne, ne_eq]
        exact fun hh => hk hh.symm
      simp [List.find?_cons, hb]
    by_cases hkm : k ∈ (newFetchedAtOf [updatedRecord p a] p now).map (fun e => e.1)
    · rw [if_pos hkm]
      have hkold : k ∈ (fetchedAtOf p).map (fun e => e.1) := by
        unfold newFetchedAtOf at hkm
        rcases (mem_keys_getFetchedAt _ _ _ _).mp hkm with hl | hr
        · exfalso
          simp only [List.map_map, List.map_cons, List.map_nil, List.mem_singleton] at hl
          exact hk hl
        · exact hr
      have hsome : (aget p k).isSome := by
        rw [h3 k hkfa]
        exact (isSome_aget _ _).mpr hkold
      obtain ⟨pv, hpv⟩ := Option.isSome_iff_exists.mp hsome
      unfold mergeVal
      rw [hbid0]
      unfold poolGet
      rw [hpv]
      rfl
    · rw [if_neg hkm, if_neg hkfa]
      have hkold : k ∉ (fetchedAtOf p).map (fun e => e.1) := by
        intro hc
        apply hkm
        unfold newFetchedAtOf
        rw [mem_keys_getFetchedAt]
        exact Or.inr hc
      have hnone : ¬(aget p k).isSome := by
        rw [h3 k hkfa]
        exact fun hs => hkold ((isSome_aget _ _).mp hs)
      exact (Option.not_isSome_iff_eq_none.mp hnone).symm

/-- A safe optimistic update of an absent id, used by the C7 witness. -/
def c7SafeAction : Action :=
  ⟨⟨JVal.num 7, [], PData.obj [("id", JVal.num 7), ("title", JVal.str "n")]⟩,
   some ⟨true, some UPDATE, Option.none, Option.none, Option.none, Option.none⟩⟩

theorem c7_update_absent_witness :
    (c7SafeAction.payload.data = PData.obj [("id", JVal.num 7), ("title", JVal.str "n")] ∧
      aget initialState (jsToString c7SafeAction.payload.id) = none) ∧
      aget (dataReducer initialState c7SafeAction 3) (jsToString c7SafeAction.payload.id) =
        some (PV.obj (jsSpread [] [("id", JVal.num 7), ("title", JVal.str "n")])) :=
  ⟨⟨by decide, by decide⟩,
    c7_update_absent initialState c7SafeAction
      ⟨true, some UPDATE, Option.none, Option.none, Option.none, Option.none⟩ 3
      [("id", JVal.num 7), ("title", JVal.str "n")]
      (by decide) (by decide) (by decide) (by decide) (by decide)
      (Or.inl ⟨by decide, by decide⟩)⟩

/-- A plain optimistic update (no position-field name) of record `1`,
used by the C8 witness. -/
def c8Action : Action :=
  ⟨⟨JVal.num 1, [], PData.obj [("id", JVal.num 1), ("title", JVal.str "x")]⟩,
   some ⟨true, some UPDATE, Option.none, Option.none, Option.none, Option.none⟩⟩

theorem c8_plain_update_witness :
    (WfB c4Pool = true ∧
      jsToString (jsGetV (updatedRecord c4Pool c8Action) "id") ≠ "fetchedAt") ∧
      (aget (dataReducer c4Pool c8Action 6)
          (jsToString (jsGetV (updatedRecord c4Pool c8Action) "id")) =
          some (PV.obj (updatedRecord c4Pool c8Action)) ∧
        ∀ k, k ≠ jsToString (jsGetV (updatedRecord c4Pool c8Action) "id") →
          k ≠ "fetchedAt" →
          aget (dataReducer c4Pool c8Action 6) k = aget c4Pool k) :=
  ⟨⟨by decide, by decide⟩,
    c8_plain_update c4Pool c8Action
      ⟨true, some UPDATE, Option.none, Option.none, Option.none, Option.none⟩ 6
      (by decide) (by decide) (by decide) (Or.inl (by decide)) (by decide) (by decide)⟩

/-! ### The move branch: sibling-shift machinery for C2 and C9 -/

theorem idMatch_at {p : Pool} (him : IdMatchB p = true) {id : String} {pv : PV}
    (hfa : id ≠ "fetchedAt") (hg : aget p id = some pv) :
    ∃ r, pv = PV.obj r ∧ jsToString (jsGetV r "id") = id := by
  have hmem := aget_mem hg
  have hall := List.all_eq_true.mp him (id, pv) hmem
  rcases (Bool.or_eq_true _ _).mp hall with h1 | h1
  · exact absurd (by simpa using h1) hfa
  · cases pv with
    | undef => simp at h1
    | obj r => exact ⟨r, rfl, by simpa using h1⟩

/-- The shifted copy of the record at an enumerable key keeps its storage
key: its id field stringifies back to the key (position-field name not
`"id"`, ids matching keys). -/
theorem shiftOf_key {p : Pool} {a : Action} {m : Meta} (hm : a.meta = some m)
    (hposid : srcKey m.positionSource ≠ "id") (him : IdMatchB p = true)
    {id : String} (hid : id ∈ enumKeys p) :
    jsToString (jsGetV (shiftOf p a id) "id") = id := by
  obtain ⟨hfa, hs⟩ := (mem_enumKeys p id).mp hid
  obtain ⟨pv, hpv⟩ := Option.isSome_iff_exists.mp hs
  obtain ⟨r, hr, hkey⟩ := idMatch_at him hfa hpv
  simp only [shiftOf, hm]
  rw [jsGetV_aset, if_neg (fun hh => hposid hh.symm)]
  unfold poolGet
  rw [hpv, hr]
  exact hkey

theorem lastWith_map_keyed {α : Type} {L : List String} {f : String → α}
    {κ : α → String} (hkey : ∀ x ∈ L, κ (f x) = x) (k : String) :
    lastWith κ (fun r => r) (L.map f) k = if k ∈ L then some (f k) else none := by
  induction L with
  | nil => simp [lastWith_nil]
  | cons x L ih =>
      simp only [List.map_cons, lastWith_cons]
      rw [ih (fun y hy => hkey y (List.mem_cons_of_mem x hy))]
      rw [hkey x (List.mem_cons_self x L)]
      by_cases hxL : k ∈ L
      · rw [if_pos hxL, if_pos (List.mem_cons_of_mem x hxL)]
        simp [Option.or]
      · rw [if_neg hxL]
        by_cases hxk : x = k
        · subst hxk
          rw [if_pos rfl, if_pos (List.mem_cons_self x L)]
          simp [Option.none_or]
        · rw [if_neg hxk,
            if_neg (fun hc => (List.mem_cons.mp hc).elim (fun hh => hxk hh.symm) hxL)]
          simp [Option.or]

theorem byIdOf_nextSiblings {p : Pool} {a : Action} {m : Meta} (hm : a.meta = some m)
    (hpt : optTruthy m.positionSource = true)
    (hposid : srcKey m.positionSource ≠ "id") (him : IdMatchB p = true) (k : String) :
    byIdOf (nextSiblings p a) k =
      if k ∈ enumKeys p ∧ siblingCond p a k = true then some (shiftOf p a k) else none := by
  have hns : nextSiblings p a =
      ((enumKeys p).filter (fun id => siblingCond p a id)).map (fun id => shiftOf p a id) := by
    simp [nextSiblings, hm, hpt]
  rw [hns]
  unfold byIdOf
  rw [lastWith_map_keyed (κ := fun r => jsToString (jsGetV r "id"))
    (fun x hx => shiftOf_key hm hposid him (List.mem_filter.mp hx).1) k]
  by_cases hkf : k ∈ (enumKeys p).filter (fun id => siblingCond p a id)
  · have hkc := List.mem_filter.mp hkf
    rw [if_pos hkf, if_pos ⟨hkc.1, hkc.2⟩]
  · rw [if_neg hkf, if_neg (fun hc => hkf (List.mem_filter.mpr ⟨hc.1, hc.2⟩))]

/-- Reduction of the reducer on the optimistic update/move branch. -/
theorem dataReducer_move (p : Pool) (a : Action) (m : Meta) (now : Int)
    (hm : a.meta = some m) (hopt : m.optimistic = true)
    (hf : m.fetch = some UPDATE ∨ m.fetch = some MOVE_NODE) :
    dataReducer p a now =
      addRecords (updatedRecord p a :: nextSiblings p a) p now := by
  simp only [dataReducer, hm]
  rw [if_pos hopt, if_pos hf]

/-- Lookup after a move, case 1: a key whose record passes the sibling
filter ends up holding its shifted copy (even if it is the move target
itself — the shifted siblings are merged after the updated record). -/
theorem move_lookup_shifted (p : Pool) (a : Action) (m : Meta) (now : Int) (k : String)
    (hm : a.meta = some m) (hopt : m.optimistic = true)
    (hf : m.fetch = some UPDATE ∨ m.fetch = some MOVE_NODE)
    (hpt : optTruthy m.positionSource = true)
    (hposid : srcKey m.positionSource ≠ "id") (him : IdMatchB p = true)
    (hke : k ∈ enumKeys p) (hkc : siblingCond p a k = true) :
    aget (dataReducer p a now) k = some (PV.obj (shiftOf p a k)) := by
  rw [dataReducer_move p a m now hm hopt hf, aget_addRecords]
  have hsib : shiftOf p a k ∈ nextSiblings p a := by
    have hns : nextSiblings p a =
        ((enumKeys p).filter (fun id => siblingCond p a id)).map
          (fun id => shiftOf p a id) := by
      simp [nextSiblings, hm, hpt]
    rw [hns]
    exact List.mem_map.mpr ⟨k, List.mem_filter.mpr ⟨hke, hkc⟩, rfl⟩
  have hkeymem : k ∈
      (newFetchedAtOf (updatedRecord p a :: nextSiblings p a) p now).map (fun e => e.1) := by
    unfold newFetchedAtOf
    rw [mem_keys_getFetchedAt]
    left
    rw [List.map_map]
    exact List.mem_map.mpr ⟨shiftOf p a k, List.mem_cons_of_mem _ hsib,
      shiftOf_key hm hposid him hke⟩
  rw [if_pos hkeymem]
  unfold mergeVal
  have hbid : byIdOf (updatedRecord p a :: nextSiblings p a) k = some (shiftOf p a k) := by
    have hcons := lastWith_cons (fun r => jsToString (jsGetV r "id")) (fun r => r)
      (updatedRecord p a) (nextSiblings p a) k
    have htail := byIdOf_nextSiblings hm hpt hposid him k
    rw [if_pos ⟨hke, hkc⟩] at htail
    unfold byIdOf at htail ⊢
    rw [hcons, htail]
    rfl
  rw [hbid]

/-- Lookup after a move, case 2: a key whose record does not pass the
sibling filter but which is the merged record's own key holds the
shallow-merged updated record. -/
theorem move_lookup_updated (p : Pool) (a : Action) (m : Meta) (now : Int) (k : String)
    (hm : a.meta = some m) (hopt : m.optimistic = true)
    (hf : m.fetch = some UPDATE ∨ m.fetch = some MOVE_NODE)
    (hpt : optTruthy m.positionSource = true)
    (hposid : srcKey m.positionSource ≠ "id") (him : IdMatchB p = true)
    (hnot : ¬(k ∈ enumKeys p ∧ siblingCond p a k = true))
    (huk : jsToString (jsGetV (updatedRecord p a) "id") = k) :
    aget (dataReducer p a now) k = some (PV.obj (updatedRecord p a)) := by
  rw [dataReducer_move p a m now hm hopt hf, aget_addRecords]
  have hkeymem : k ∈
      (newFetchedAtOf (updatedRecord p a :: nextSiblings p a) p now).map (fun e => e.1) := by
    unfold newFetchedAtOf
    rw [mem_keys_getFetchedAt]
    left
    rw [List.map_map]
    exact List.mem_map.mpr ⟨updatedRecord p a, List.mem_cons_self _ _, huk⟩
  rw [if_pos hkeymem]
  unfold mergeVal
  have hbid : byIdOf (updatedRecord p a :: nextSiblings p a) k =
      some (updatedRecord p a) := by
    have hcons := lastWith_cons (fun r => jsToString (jsGetV r "id")) (fun r => r)
      (updatedRecord p a) (nextSiblings p a) k
    have htail := byIdOf_nextSiblings hm hpt hposid him k
    rw [if_neg hnot] at htail
    unfold byIdOf at htail ⊢
    rw [hcons, htail, huk]
    simp [Option.none_or]
  rw [hbid]

/-- Lookup after a move, case 3: every other key is untouched. -/
theorem move_lookup_other (p : Pool) (a : Action) (m : Meta) (now : Int) (k : String)
    (hm : a.meta = some m) (hopt : m.optimistic = true)
    (hf : m.fetch = some UPDATE ∨ m.fetch = some MOVE_NODE)
    (hpt : optTruthy m.positionSource = true)
    (hposid : srcKey m.positionSource ≠ "id") (him : IdMatchB p = true)
    (hw : WfB p = true) (hk : k ≠ "fetchedAt")
    (hnot : ¬(k ∈ enumKeys p ∧ siblingCond p a k = true))
    (huk : jsToString (jsGetV (updatedRecord p a) "id") ≠ k) :
    aget (dataReducer p a now) k = aget p k := by
  obtain ⟨_, _, h3, _⟩ := poolInv_of_wfB hw
  rw [dataReducer_move p a m now hm hopt hf, aget_addRecords]
  have hbid : byIdOf (updatedRecord p a :: nextSiblings p a) k = none := by
    have hcons := lastWith_cons (fun r => jsToString (jsGetV r "id")) (fun r => r)
      (updatedRecord p a) (nextSiblings p a) k
    have htail := byIdOf_nextSiblings hm hpt hposid him k
    rw [if_neg hnot] at htail
    unfold byIdOf at htail ⊢
    rw [hcons, htail, if_neg huk]
    rfl
  have hnotrs : k ∉ ((updatedRecord p a :: nextSiblings p a).map
      (fun r => jsGetV r "id")).map jsToString := by
    rw [List.map_map]
    intro hc
    obtain ⟨r, hr, hrk⟩ := List.mem_map.mp hc
    have hrk' : jsToString (jsGetV r "id") = k := hrk
    rcases List.mem_cons.mp hr with hru | hrs
    · exact huk (hru ▸ hrk')
    · obtain ⟨j, hj, hjc, hjr⟩ := mem_nextSiblings hrs
      have hjk : jsToString (jsGetV r "id") = j := hjr ▸ shiftOf_key hm hposid him hj
      rw [hjk] at hrk'
      exact hnot (hrk' ▸ ⟨hj, hjc⟩)
  by_cases hkm : k ∈
      (newFetchedAtOf (updatedRecord p a :: nextSiblings p a) p now).map (fun e => e.1)
  · rw [if_pos hkm]
    have hkold : k ∈ (fetchedAtOf p).map (fun e => e.1) := by
      unfold newFetchedAtOf at hkm
      rcases (mem_keys_getFetchedAt _ _ _ _).mp hkm with hl | hr
      · exact absurd hl hnotrs
      · exact hr
    have hsome : (aget p k).isSome := by
      rw [h3 k hk]
      exact (isSome_aget _ _).mpr hkold
    obtain ⟨pv, hpv⟩ := Option.isSome_iff_exists.mp hsome
    unfold mergeVal
    rw [hbid]
    unfold poolGet
    rw [hpv]
    rfl
  · rw [if_neg hkm, if_neg hk]
    have hkold : k ∉ (fetchedAtOf p).map (fun e => e.1) := by
      intro hc
      exact hkm (by
        unfold newFetchedAtOf
        rw [mem_keys_getFetchedAt]
        exact Or.inr hc)
    have hnone : ¬(aget p k).isSome := by
      rw [h3 k hk]
      exact fun hs => hkold ((isSome_aget _ _).mp hs)
    exact (Option.not_isSome_iff_eq_none.mp hnone).symm

/-! ### Claim C9 -/

/-- C9: when the move target already exists in the pool with a
parent-field value equal to the move's new parent and a position-field
value `>=` the move's new position, the target record itself passes the
sibling filter; its shifted copy is merged after the updated record, so
the resulting pool at the target holds the old record with only its
position incremented by one — the event's partial data (including the new
position) is not applied. -/
theorem c9_self_shift_overwrite (p : Pool) (a : Action) (m : Meta) (now : Int)
    (Dold : JsObj)
    (hm : a.meta = some m) (hopt : m.optimistic = true)
    (hf : m.fetch = some UPDATE ∨ m.fetch = some MOVE_NODE)
    (hpt : optTruthy m.positionSource = true)
    (hposid : srcKey m.positionSource ≠ "id") (him : IdMatchB p = true)
    (hdfa : jsToString a.payload.id ≠ "fetchedAt")
    (hD : aget p (jsToString a.payload.id) = some (PV.obj Dold))
    (hpar : jsEq (jsGetV Dold (srcKey m.parentSource))
        (jsGetV a.payload.data.toObj (srcKey m.parentSource)) = true)
    (hge : jsGe (jsGetV Dold (srcKey m.positionSource))
        (jsGetV a.payload.data.toObj (srcKey m.positionSource)) = true) :
    aget (dataReducer p a now) (jsToString a.payload.id) =
      some (PV.obj (aset Dold (srcKey m.positionSource)
        (jsAdd1 (jsGetV Dold (srcKey m.positionSource))))) := by
  have hke : jsToString a.payload.id ∈ enumKeys p :=
    (mem_enumKeys p _).mpr ⟨hdfa, by rw [hD]; rfl⟩
  have hcond : siblingCond p a (jsToString a.payload.id) = true := by
    simp only [siblingCond, hm]
    unfold poolGet
    rw [hD]
    simp only [objOfPV, Option.getD_some]
    rw [hpar, hge]
    rfl
  have hres := move_lookup_shifted p a m now _ hm hopt hf hpt hposid him hke hcond
  rw [hres]
  simp only [shiftOf, hm]
  unfold poolGet
  rw [hD]
  rfl

/-- The pool holding record `4` at (parent 100, position 2), used by the
C9 witness. -/
def c9Pool : Pool :=
  [("fetchedAt", PV.obj [("4", JVal.num 0)]),
   ("4", PV.obj [("id", JVal.num 4), ("parent_id", JVal.num 100), ("position", JVal.num 2)])]

/-- The optimistic move of record `4` to (parent 100, position 1), used
by the C9 and C2 witnesses. -/
def c9Move : Action :=
  ⟨⟨JVal.num 4, [],
    PData.obj [("id", JVal.num 4), ("parent_id", JVal.num 100), ("position", JVal.num 1)]⟩,
   some ⟨true, some MOVE_NODE, some "parent_id", some "position", Option.none, Option.none⟩⟩

theorem c9_self_shift_overwrite_witness :
    (IdMatchB c9Pool = true ∧
      aget c9Pool (jsToString c9Move.payload.id) =
        some (PV.obj [("id", JVal.num 4), ("parent_id", JVal.num 100),
          ("position", JVal.num 2)])) ∧
      aget (dataReducer c9Pool c9Move 5) (jsToString c9Move.payload.id) =
        some (PV.obj (aset [("id", JVal.num 4), ("parent_id", JVal.num 100),
          ("position", JVal.num 2)]
          (srcKey (some "position"))
          (jsAdd1 (jsGetV [("id", JVal.num 4), ("parent_id", JVal.num 100),
            ("position", JVal.num 2)] (srcKey (some "position")))))) :=
  ⟨⟨by decide, by decide⟩,
    c9_self_shift_overwrite c9Pool c9Move
      ⟨true, some MOVE_NODE, some "parent_id", some "position", Option.none, Option.none⟩ 5
      [("id", JVal.num 4), ("parent_id", JVal.num 100), ("position", JVal.num 2)]
      (by decide) (by decide) (Or.inr (by decide)) (by decide) (by decide) (by decide)
      (by decide) (by decide) (by decide) (by decide)⟩

/-! ### Claim C2 -/

/-- C2: sibling-shift correctness.  Given records A(parent = P, pos = 0),
B(parent = P, pos = 1), C(parent = P, pos = 2) and an optimistic move of
a record D — whose key differs from A's and whose previous record, if
any, does not match the sibling filter — to (parent = P, pos = 1): B ends
at position 2, C at position 3, A is unchanged (still at 0), D sits at
position 1 holding the merged data, and every record other than the moved
one whose parent-field value differs from P (or whose position is below
the insertion point) keeps its record, position included, unchanged. -/
theorem c2_sibling_shift (p : Pool) (a : Action) (m : Meta) (now : Int)
    (dat : JsObj) (parF posF : String) (P : JVal)
    (ka kb kc : String) (A B C : JsObj)
    (hm : a.meta = some m) (hopt : m.optimistic = true)
    (hf : m.fetch = some UPDATE ∨ m.fetch = some MOVE_NODE)
    (hpar : m.parentSource = some parF) (hpos : m.positionSource = some posF)
    (hpne : posF ≠ "") (hposid : posF ≠ "id")
    (hdat : a.payload.data = PData.obj dat)
    (hP : jsGetV dat parF = P) (hpos1 : jsGetV dat posF = JVal.num 1)
    (him : IdMatchB p = true) (hw : WfB p = true)
    (hndd : (dat.map (fun e => e.1)).Nodup)
    (hA : aget p ka = some (PV.obj A)) (hkaf : ka ≠ "fetchedAt")
    (hApar : jsEq (jsGetV A parF) P = true) (hApos : jsGetV A posF = JVal.num 0)
    (hB : aget p kb = some (PV.obj B)) (hkbf : kb ≠ "fetchedAt")
    (hBpar : jsEq (jsGetV B parF) P = true) (hBpos : jsGetV B posF = JVal.num 1)
    (hC : aget p kc = some (PV.obj C)) (hkcf : kc ≠ "fetchedAt")
    (hCpar : jsEq (jsGetV C parF) P = true) (hCpos : jsGetV C posF = JVal.num 2)
    (hka : ka ≠ jsToString (jsGetV (updatedRecord p a) "id"))
    (hDnot : ¬(jsToString (jsGetV (updatedRecord p a) "id") ∈ enumKeys p ∧
        siblingCond p a (jsToString (jsGetV (updatedRecord p a) "id")) = true)) :
    aget (dataReducer p a now) ka = some (PV.obj A) ∧
      aget (dataReducer p a now) kb = some (PV.obj (aset B posF (JVal.num 2))) ∧
      aget (dataReducer p a now) kc = some (PV.obj (aset C posF (JVal.num 3))) ∧
      (aget (dataReducer p a now) (jsToString (jsGetV (updatedRecord p a) "id")) =
          some (PV.obj (updatedRecord p a)) ∧
        jsGetV (updatedRecord p a) posF = JVal.num 1) ∧
      (∀ k r, k ≠ jsToString (jsGetV (updatedRecord p a) "id") → k ≠ "fetchedAt" →
        aget p k = some (PV.obj r) →
        (jsEq (jsGetV r parF) P = false ∨ jsGe (jsGetV r posF) (JVal.num 1) = false) →
        aget (dataReducer p a now) k = some (PV.obj r)) := by
  have hpt : optTruthy m.positionSource = true := by
    rw [hpos]
    simp [optTruthy, hpne]
  have hsposid : srcKey m.positionSource ≠ "id" := by
    rw [hpos]
    simpa [srcKey] using hposid
  have htoObj : a.payload.data.toObj = dat := by
    rw [hdat]
    rfl
  have hcondeq : ∀ k r, aget p k = some (PV.obj r) →
      siblingCond p a k = (jsEq (jsGetV r parF) P && jsGe (jsGetV r posF) (JVal.num 1)) := by
    intro k r hr
    simp only [siblingCond, hm]
    unfold poolGet
    rw [hr]
    simp only [objOfPV, Option.getD_some]
    rw [hpar, hpos]
    simp only [srcKey]
    rw [htoObj, hP, hpos1]
  have hother : ∀ k r, k ≠ jsToString (jsGetV (updatedRecord p a) "id") → k ≠ "fetchedAt" →
      aget p k = some (PV.obj r) →
      (jsEq (jsGetV r parF) P = false ∨ jsGe (jsGetV r posF) (JVal.num 1) = false) →
      aget (dataReducer p a now) k = some (PV.obj r) := by
    intro k r hk hkfa hr hdisj
    have hnot : ¬(k ∈ enumKeys p ∧ siblingCond p a k = true) := by
      rintro ⟨_, hc⟩
      rw [hcondeq k r hr] at hc
      rcases hdisj with h | h
      · rw [h] at hc
        simp at hc
      · rw [h] at hc
        simp at hc
    have := move_lookup_other p a m now k hm hopt hf hpt hsposid him hw hkfa hnot
      (fun hh => hk hh.symm)
    rw [this, hr]
  have hshift : ∀ k r, k ∈ enumKeys p → aget p k = some (PV.obj r) →
      jsEq (jsGetV r parF) P = true → jsGe (jsGetV r posF) (JVal.num 1) = true →
      aget (dataReducer p a now) k =
        some (PV.obj (aset r posF (jsAdd1 (jsGetV r posF)))) := by
    intro k r hke hr hpe hge
    have hc : siblingCond p a k = true := by
      rw [hcondeq k r hr, hpe, hge]
      rfl
    have := move_lookup_shifted p a m now k hm hopt hf hpt hsposid him hke hc
    rw [this]
    simp only [shiftOf, hm]
    unfold poolGet
    rw [hr]
    simp only [objOfPV, Option.getD_some]
    rw [hpos]
    simp only [srcKey]
  refine ⟨?_, ?_, ?_, ⟨?_, ?_⟩, hother⟩
  · exact hother ka A hka hkaf hA (Or.inr (by rw [hApos]; decide))
  · have := hshift kb B ((mem_enumKeys p kb).mpr ⟨hkbf, by rw [hB]; rfl⟩) hB hBpar
      (by rw [hBpos]; decide)
    rw [this, hBpos]
    have h2 : jsAdd1 (JVal.num 1) = JVal.num 2 := by decide
    rw [h2]
  · have := hshift kc C ((mem_enumKeys p kc).mpr ⟨hkcf, by rw [hC]; rfl⟩) hC hCpar
      (by rw [hCpos]; decide)
    rw [this, hCpos]
    have h3 : jsAdd1 (JVal.num 2) = JVal.num 3 := by decide
    rw [h3]
  · exact move_lookup_updated p a m now _ hm hopt hf hpt hsposid him hDnot rfl
  · have hps : aget dat posF = some (JVal.num 1) := by
      unfold jsGetV at hpos1
      cases h : aget dat posF with
      | none =>
          rw [h] at hpos1
          simp at hpos1
      | some v =>
          rw [h] at hpos1
          simpa using hpos1
    unfold updatedRecord jsGetV
    rw [htoObj, aget_jsSpread, lastWith_nodup hndd, hps]
    simp [Option.or]

/-- Record A of the C2 witness. -/
def c2A : JsObj := [("id", JVal.num 1), ("parent_id", JVal.num 100), ("position", JVal.num 0)]

/-- Record B of the C2 witness. -/
def c2B : JsObj := [("id", JVal.num 2), ("parent_id", JVal.num 100), ("position", JVal.num 1)]

/-- Record C of the C2 witness. -/
def c2C : JsObj := [("id", JVal.num 3), ("parent_id", JVal.num 100), ("position", JVal.num 2)]

/-- A record under a different parent, untouched by the C2 move. -/
def c2Other : JsObj := [("id", JVal.num 9), ("parent_id", JVal.num 200), ("position", JVal.num 1)]

/-- The C2 witness pool: A, B, C under parent 100 at positions 0, 1, 2,
plus a record under parent 200. -/
def c2Pool : Pool :=
  [("fetchedAt", PV.obj [("1", JVal.num 0), ("2", JVal.num 0), ("3", JVal.num 0),
    ("9", JVal.num 0)]),
   ("1", PV.obj c2A), ("2", PV.obj c2B), ("3", PV.obj c2C), ("9", PV.obj c2Other)]

theorem c2_sibling_shift_witness :
    (WfB c2Pool = true ∧ IdMatchB c2Pool = true ∧
      aget c2Pool "4" = none) ∧
      (aget (dataReducer c2Pool c9Move 5) "1" = some (PV.obj c2A) ∧
        aget (dataReducer c2Pool c9Move 5) "2" =
          some (PV.obj (aset c2B "position" (JVal.num 2))) ∧
        aget (dataReducer c2Pool c9Move 5) "3" =
          some (PV.obj (aset c2C "position" (JVal.num 3))) ∧
        (aget (dataReducer c2Pool c9Move 5)
            (jsToString (jsGetV (updatedRecord c2Pool c9Move) "id")) =
            some (PV.obj (updatedRecord c2Pool c9Move)) ∧
          jsGetV (updatedRecord c2Pool c9Move) "position" = JVal.num 1) ∧
        (∀ k r, k ≠ jsToString (jsGetV (updatedRecord c2Pool c9Move) "id") →
          k ≠ "fetchedAt" → aget c2Pool k = some (PV.obj r) →
          (jsEq (jsGetV r "parent_id") (JVal.num 100) = false ∨
            jsGe (jsGetV r "position") (JVal.num 1) = false) →
          aget (dataReducer c2Pool c9Move 5) k = some (PV.obj r))) :=
  ⟨⟨by decide, by decide, by decide⟩,
    c2_sibling_shift c2Pool c9Move
      ⟨true, some MOVE_NODE, some "parent_id", some "position", Option.none, Option.none⟩ 5
      [("id", JVal.num 4), ("parent_id", JVal.num 100), ("position", JVal.num 1)]
      "parent_id" "position" (JVal.num 100) "1" "2" "3" c2A c2B c2C
      (by decide) (by decide) (Or.inr (by decide)) (by decide) (by decide) (by decide)
      (by decide) (by decide) (by decide) (by decide) (by decide) (by decide) (by decide)
      (by decide) (by decide) (by decide) (by decide) (by decide) (by decide) (by decide)
      (by decide) (by decide) (by decide) (by decide) (by decide) (by decide) (by decide)⟩

end RaTree
